/-
  Verification of the DocQueryAI retrieval-and-extraction core.

  The TypeScript sources are shallowly embedded over `List Char` (a JS string
  is modelled as its list of UTF-16-ish code points; only ASCII behaviour is
  exercised).  JS `number` values that stay integral are modelled as `ℕ`/`ℤ`,
  exact fractional arithmetic as `ℚ`, and values that pass through `Math.sqrt`
  as `ℝ`.  JS regular expressions are embedded through a small backtracking
  matcher (`matchFrom`) driven by explicit pattern ASTs; every pattern term in
  this file transcribes one regex literal from the source.
-/
import Mathlib

/-! ## Basic JS string primitives over `List Char` -/

/-- Coerce a Lean string literal to the `List Char` representation. -/
def str (s : String) : List Char := s.data

/-- ASCII lower-casing of one character (JS `toLowerCase` restricted to the
ASCII range actually exercised by the repository). -/
def jsLowerChar (c : Char) : Char :=
  if 'A' ≤ c ∧ c ≤ 'Z' then Char.ofNat (c.toNat + 32) else c

/-- JS `String.prototype.toLowerCase`. -/
def jsLower (s : List Char) : List Char := s.map jsLowerChar

/-- The characters matched by the JS regex class `\s` (ASCII part plus NBSP). -/
def jsIsWs (c : Char) : Bool :=
  c = ' ' ∨ c = '\t' ∨ c = '\n' ∨ c = '\r' ∨ c = Char.ofNat 11 ∨
    c = Char.ofNat 12 ∨ c = Char.ofNat 160

/-- JS `String.prototype.trim`. -/
def jsTrim (s : List Char) : List Char :=
  ((s.dropWhile jsIsWs).reverse.dropWhile jsIsWs).reverse

/-- JS `String.prototype.slice(a, b)` for non-negative arguments. -/
def jsSlice (s : List Char) (a b : ℕ) : List Char := (s.take b).drop a

/-- JS `String.prototype.substring(0, b)`. -/
def jsSub (s : List Char) (b : ℕ) : List Char := s.take b

/-- Does `w` occur at the very start of `s`? (helper for substring search). -/
def headEq : List Char → List Char → Bool
  | [], _ => true
  | _ :: _, [] => false
  | a :: w, b :: s => a = b && headEq w s

/-- JS `String.prototype.includes(w)` — substring containment. -/
def containsL : List Char → List Char → Bool
  | s, w => match s with
    | [] => w.isEmpty
    | _ :: t => headEq w s || containsL t w

/-- JS `String.prototype.indexOf(w, from)` returning `none` for `-1`. -/
def indexOfFrom (s w : List Char) (start : ℕ) : Option ℕ :=
  (List.range (s.length + 1)).find? fun i => start ≤ i && headEq w (s.drop i)

/-- Worker for `splitRuns`: `inSep` records whether the scan is inside a
separator run, `acc` the reversed current piece. -/
def splitRunsGo (p : Char → Bool) : Bool → List Char → List Char →
    List (List Char)
  | _, acc, [] => [acc.reverse]
  | inSep, acc, c :: rest =>
    if p c then
      if inSep then splitRunsGo p true acc rest
      else acc.reverse :: splitRunsGo p true [] rest
    else splitRunsGo p false (c :: acc) rest

/-- Split on maximal runs of characters satisfying `p`
(JS `split(/[c]+/)` shape: `""` splits to `[""]`, boundary runs produce
empty pieces). -/
def splitRuns (p : Char → Bool) (s : List Char) : List (List Char) :=
  splitRunsGo p false [] s

/-- JS `Array.prototype.join(sep)` over string pieces. -/
def joinSep (sep : List Char) (l : List (List Char)) : List Char :=
  List.intercalate sep l

/-! ## A small backtracking regex matcher

Patterns are sequences of items; alternation of non-literal branches is only
ever needed at top level in the sources, so a "pattern" passed to the search
functions is a list of sequential patterns tried in order at each position —
exactly the JS behaviour for a top-level alternation.  Up to two capture
groups are supported (`match[1]`, `match[2]`). -/

/-- One sequential regex item. -/
inductive RItem where
  /-- literal word, case-insensitively when `ci` -/
  | lit (ci : Bool) (w : List Char)
  /-- character class with `{mn,mx}` quantifier (`mx = none` meaning `∞`,
      capped by the input); `greedy = false` gives the lazy `?` variant -/
  | cls (p : Char → Bool) (mn : ℕ) (mx : Option ℕ) (greedy : Bool)
  /-- alternation of literal words, tried in order -/
  | altLit (ci : Bool) (ws : List (List Char))
  /-- open capture group `n` (1 or 2) -/
  | gOpen (n : ℕ)
  /-- close capture group `n` -/
  | gClose (n : ℕ)

/-- Capture-group state during a match. -/
structure Caps where
  s1 : Option ℕ := none
  g1 : Option (ℕ × ℕ) := none
  s2 : Option ℕ := none
  g2 : Option (ℕ × ℕ) := none

def Caps.openG (cp : Caps) (n i : ℕ) : Caps :=
  if n = 1 then { cp with s1 := some i } else { cp with s2 := some i }

def Caps.closeG (cp : Caps) (n i : ℕ) : Caps :=
  if n = 1 then { cp with g1 := cp.s1.map fun a => (a, i) }
  else { cp with g2 := cp.s2.map fun a => (a, i) }

/-- Case-insensitive (when `ci`) literal test at position `i` of `s`. -/
def litTest (ci : Bool) (w s : List Char) (i : ℕ) : Bool :=
  headEq (if ci then jsLower w else w)
    (if ci then jsLower (s.drop i) else s.drop i)

/-- Length of the maximal run of characters satisfying `p` from position `i`. -/
def runLen (p : Char → Bool) (s : List Char) (i : ℕ) : ℕ :=
  ((s.drop i).takeWhile p).length

/-- Backtracking matcher.  `fuel` only bounds the recursion depth, which is at
most the item-list length, so callers pass `items.length + 1`; it exists to
keep the recursion structural (hence kernel-reducible). -/
def matchFrom (fuel : ℕ) (items : List RItem) (s : List Char) (i : ℕ)
    (cp : Caps) : Option (ℕ × Caps) :=
  match fuel with
  | 0 => none
  | fuel + 1 =>
    match items with
    | [] => some (i, cp)
    | .lit ci w :: rest =>
      if litTest ci w s i then matchFrom fuel rest s (i + w.length) cp else none
    | .cls p mn mx greedy :: rest =>
      let mr := runLen p s i
      let hi := match mx with | none => mr | some m => min m mr
      if mn ≤ hi then
        (List.range (hi + 1 - mn)).findSome? fun j =>
          let k := if greedy then hi - j else mn + j
          matchFrom fuel rest s (i + k) cp
      else none
    | .altLit ci ws :: rest =>
      ws.findSome? fun w =>
        if litTest ci w s i then matchFrom fuel rest s (i + w.length) cp
        else none
    | .gOpen n :: rest => matchFrom fuel rest s i (cp.openG n i)
    | .gClose n :: rest => matchFrom fuel rest s i (cp.closeG n i)

/-- Try each sequential pattern of a top-level alternation at position `i`. -/
def matchPatsAt (pats : List (List RItem)) (s : List Char) (i : ℕ) :
    Option (ℕ × ℕ × Caps) :=
  pats.findSome? fun pat =>
    (matchFrom (pat.length + 1) pat s i {}).map fun r => (i, r.1, r.2)

/-- Leftmost match at or after `start` (the JS engine's scan loop). -/
def searchFrom (pats : List (List RItem)) (s : List Char) (start : ℕ) :
    Option (ℕ × ℕ × Caps) :=
  (List.range (s.length + 1)).findSome? fun i =>
    if start ≤ i then matchPatsAt pats s i else none

/-- First match of a pattern in `s` (JS `String.match` without `g`). -/
def firstMatch (pat : List RItem) (s : List Char) : Option (ℕ × ℕ × Caps) :=
  searchFrom [pat] s 0

/-- All matches (JS `String.match` with `g` / repeated `exec`): continue after
each match end, advancing by one on an empty match. -/
def globalGo (pats : List (List RItem)) (s : List Char) :
    ℕ → ℕ → List (ℕ × ℕ × Caps)
  | _, 0 => []
  | i, fuel + 1 =>
    match searchFrom pats s i with
    | none => []
    | some (j, e, cp) => (j, e, cp) :: globalGo pats s (max e (j + 1)) fuel

def globalMatches (pats : List (List RItem)) (s : List Char) :
    List (ℕ × ℕ × Caps) :=
  globalGo pats s 0 (s.length + 2)

/-- The text of capture group 1 of a match (`match[1]`; empty if absent). -/
def cap1 (s : List Char) (cp : Caps) : List Char :=
  match cp.g1 with
  | some (a, b) => jsSlice s a b
  | none => []

/-- The text of capture group 2 of a match (`match[2]`). -/
def cap2 (s : List Char) (cp : Caps) : List Char :=
  match cp.g2 with
  | some (a, b) => jsSlice s a b
  | none => []

/-- JS `String.prototype.split(re)` where `re` may carry one capture group:
the captured separator text is interleaved into the output. -/
def jsSplitGo (s : List Char) : ℕ → List (ℕ × ℕ × Caps) → List (List Char)
  | pos, [] => [jsSlice s pos s.length]
  | pos, (j, e, cp) :: rest =>
    jsSlice s pos j ::
      (match cp.g1 with
        | some (a, b) => [jsSlice s a b]
        | none => []) ++ jsSplitGo s e rest

def jsSplit (pats : List (List RItem)) (s : List Char) : List (List Char) :=
  jsSplitGo s 0 (globalMatches pats s)

/-! Character-class predicates used by the source regexes. -/

def isUpperAscii (c : Char) : Bool := 'A' ≤ c ∧ c ≤ 'Z'
def isLowerAscii (c : Char) : Bool := 'a' ≤ c ∧ c ≤ 'z'
def isAsciiLetter (c : Char) : Bool := isUpperAscii c || isLowerAscii c
def isDigitAscii (c : Char) : Bool := '0' ≤ c ∧ c ≤ '9'
/-- `[a-z\s]` -/
def isLowSp (c : Char) : Bool := isLowerAscii c || jsIsWs c
/-- `[a-z\s]` under the `i` flag (case-folded) -/
def isLetterSp (c : Char) : Bool := isAsciiLetter c || jsIsWs c
/-- `[^.]` -/
def notDot (c : Char) : Bool := c ≠ '.'
/-- `[^:]` -/
def notColon (c : Char) : Bool := c ≠ ':'
/-- `[^?]` -/
def notQm (c : Char) : Bool := c ≠ '?'
/-- `[:\s]` -/
def colonWs (c : Char) : Bool := c = ':' || jsIsWs c

/-! ## `extractInformationFromContext` (server/storage.ts)

The precise-extraction rule cascade.  Each `Pat` definition transcribes one
regex literal of the source; the interpolated `subject` is treated as a regex
literal (the source never escapes it, but no exercised subject contains a
metacharacter).  `console.log` calls have no semantic effect and are dropped. -/

/-- `/what is\s+([^?]+)/i` -/
def whatIsPat : List RItem :=
  [.lit true (str "what is"), .cls jsIsWs 1 none true,
   .gOpen 1, .cls notQm 1 none true, .gClose 1]

/-- `/define\s+([^?]+)/i` -/
def definePat : List RItem :=
  [.lit true (str "define"), .cls jsIsWs 1 none true,
   .gOpen 1, .cls notQm 1 none true, .gClose 1]

/-- `/explain\s+([^?]+)/i` -/
def explainPat : List RItem :=
  [.lit true (str "explain"), .cls jsIsWs 1 none true,
   .gOpen 1, .cls notQm 1 none true, .gClose 1]

/-- `commonTechTerms` scanned during "explain it" pronoun resolution. -/
def commonTechTerms : List (List Char) :=
  [str "javascript", str "html", str "css", str "react", str "node",
   str "python", str "java", str "sql"]

/-- The `techTerms` typo/synonym table (object literal, lines 164-175). -/
def techTermsMap (w : List Char) : Option (List Char) :=
  if w = str "html" ∨ w = str "htm" then some (str "HTML")
  else if w = str "javascript" ∨ w = str "js" then some (str "JavaScript")
  else if w = str "css" then some (str "CSS")
  else if w = str "react" then some (str "React")
  else if w = str "node" then some (str "Node.js")
  else if w = str "python" then some (str "Python")
  else if w = str "java" then some (str "Java")
  else none

/-- Subject extraction (lines 131-183): prefix-matched subject from a
"what is"/"define"/"explain" query, with pronoun resolution and typo
normalization on the explain branch. -/
def subjectOf (context query : List Char) : List Char :=
  let lowerQuery := jsLower query
  if containsL lowerQuery (str "what is") then
    match firstMatch whatIsPat query with
    | some (_, _, cp) => jsTrim (cap1 query cp)
    | none => []
  else if containsL lowerQuery (str "define") then
    match firstMatch definePat query with
    | some (_, _, cp) => jsTrim (cap1 query cp)
    | none => []
  else if containsL lowerQuery (str "explain") then
    let s0 :=
      match firstMatch explainPat query with
      | some (_, _, cp) => jsTrim (cap1 query cp)
      | none => []
    let s1 :=
      if s0 = str "it more" ∨ s0 = str "it" then
        match commonTechTerms.find? fun t => containsL (jsLower context) t with
        | some t => t
        | none => s0
      else s0
    if s1 ≠ [] then
      match techTermsMap (jsLower s1) with
      | some n => n
      | none => s1
    else s1
  else []

/-- The literal not-found message (line 194). -/
def notFoundMsg (subject : List Char) : List Char :=
  str "Information about \"" ++ subject ++ str "\" not found in the document."

/-- The literal mentioned-but-no-definition message (line 292). -/
def mentionedMsg (subject : List Char) : List Char :=
  str "Information about \"" ++ subject ++
    str "\" is mentioned in the document but no definition or explanation is available."

/-- `definitionKeywords` (line 227). -/
def definitionKeywords : List (List Char) :=
  [str "is", str "means", str "refers to", str "defined as", str "a type of",
   str "a form of", str "used for", str "purpose", str "function",
   str "language", str "framework", str "library", str "technology", str "tool"]

/-- The seven `definitionPatterns` (lines 200-215), in declared order. -/
def defPatterns (subject subjectLower : List Char) : List (List RItem) :=
  [ [.lit true (str "what is " ++ subjectLower ++ str "?"),
     .cls notColon 0 none true, .lit true (str "answer"),
     .cls notColon 0 none true,
     .gOpen 1, .cls notDot 30 (some 800) true, .gClose 1],
    [.lit true (str "what is " ++ subjectLower ++ str "?"),
     .cls notColon 0 none true,
     .gOpen 1, .cls notDot 30 (some 800) true, .gClose 1],
    [.lit true subject, .cls jsIsWs 1 none true, .lit true (str "is"),
     .cls jsIsWs 1 none true,
     .gOpen 1, .cls notDot 30 (some 800) true, .gClose 1],
    [.lit true subject, .cls jsIsWs 1 none true, .lit true (str "means"),
     .cls jsIsWs 1 none true,
     .gOpen 1, .cls notDot 30 (some 800) true, .gClose 1],
    [.lit true subject, .cls jsIsWs 1 none true, .lit true (str "refers to"),
     .cls jsIsWs 1 none true,
     .gOpen 1, .cls notDot 30 (some 800) true, .gClose 1],
    [.lit true subject, .cls notDot 0 none false,
     .gOpen 1, .cls notDot 50 (some 1000) true, .gClose 1],
    [.lit true subject, .cls jsIsWs 1 none true,
     .gOpen 1, .cls notDot 30 (some 800) true, .gClose 1] ]

/-- Validation of a captured definition candidate (lines 226-254).
`i` is the zero-based pattern index. -/
def defAccept (lowerQuery subjectLower result : List Char) (i : ℕ) : Bool :=
  let hasDefinitionKeywords :=
    definitionKeywords.any fun k => containsL (jsLower result) k
  let containsSubject := containsL (jsLower result) subjectLower
  let startsWithSubject := headEq subjectLower (jsLower result)
  let isAboutSubject :=
    containsL (jsLower result) (subjectLower ++ [' ']) ||
      containsL (jsLower result) ([' '] ++ subjectLower)
  let isDetailedExplanation :=
    containsL lowerQuery (str "detail") || containsL lowerQuery (str "more") ||
      containsL lowerQuery (str "explain")
  ((hasDefinitionKeywords || decide (i < 3)) &&
      (containsSubject && (startsWithSubject || isAboutSubject))) ||
    (isDetailedExplanation && decide (result.length > 50) && containsSubject &&
      (startsWithSubject || isAboutSubject))

/-- The pattern-priority loop (lines 217-258). -/
def tryDefPats (context lowerQuery subjectLower : List Char) :
    List (ℕ × List RItem) → Option (List Char)
  | [] => none
  | (i, pat) :: rest =>
    match firstMatch pat context with
    | some (_, _, cp) =>
      if (jsTrim (cap1 context cp)).length > 20 then
        let result := jsTrim (cap1 context cp)
        if defAccept lowerQuery subjectLower result i then some result
        else tryDefPats context lowerQuery subjectLower rest
      else tryDefPats context lowerQuery subjectLower rest
    | none => tryDefPats context lowerQuery subjectLower rest

/-- `[.!?]` sentence terminators. -/
def sentEnd (c : Char) : Bool := c = '.' || c = '!' || c = '?'

/-- Sentence-level fallback of the definition branch (lines 263-292). -/
def sentenceFallback (context lowerQuery subject subjectLower : List Char) :
    List Char :=
  let sentences := splitRuns sentEnd context
  let relevantSentences := sentences.filter fun sentence =>
    containsL (jsLower sentence) subjectLower &&
      decide ((jsTrim sentence).length > 30) &&
      (containsL (jsLower sentence) (str "is ") ||
        containsL (jsLower sentence) (str "means ") ||
        containsL (jsLower sentence) (str "refers to ") ||
        containsL (jsLower sentence) (str "defined as "))
  if relevantSentences.length > 0 then
    let single := jsTrim (relevantSentences.headD [])
    let singleStep :=
      if containsL (jsLower single) subjectLower then single
      else mentionedMsg subject
    if containsL lowerQuery (str "detail") || containsL lowerQuery (str "more")
    then
      let result := jsTrim (joinSep (str " ") (relevantSentences.take 3))
      if containsL (jsLower result) subjectLower then result else singleStep
    else singleStep
  else mentionedMsg subject

/-- The whole subject/definition branch (lines 185-293). -/
def definitionBranch (context lowerQuery subject : List Char) : List Char :=
  let subjectLower := jsLower subject
  let contextLower := jsLower context
  if ¬ containsL contextLower subjectLower then notFoundMsg subject
  else
    match tryDefPats context lowerQuery subjectLower
        (defPatterns subject subjectLower).enum with
    | some r => r
    | none => sentenceFallback context lowerQuery subject subjectLower

/-- The domain-suffix alternation of the project patterns. -/
def projAlts : List (List Char) :=
  [str "Manager", str "Detector", str "System", str "App", str "Application",
   str "Tool", str "Platform"]

/-- `/([A-Z][a-z\s]+(?:Manager|Detector|System|App|Application|Tool|Platform))/g` -/
def projPat1 : List RItem :=
  [.gOpen 1, .cls isUpperAscii 1 (some 1) true, .cls isLowSp 1 none true,
   .altLit false projAlts, .gClose 1]

/-- `/([A-Z][a-z\s]+)\|/g` -/
def projPat2 : List RItem :=
  [.gOpen 1, .cls isUpperAscii 1 (some 1) true, .cls isLowSp 1 none true,
   .gClose 1, .lit false (str "|")]

/-- The candidate project strings gathered by the first project branch
(lines 300-311): full matches of each pattern family in order, trimmed,
keeping those longer than 3 characters. -/
def projectMatchList (context : List Char) : List (List Char) :=
  let fam := fun pat =>
    ((globalMatches [pat] context).map fun r =>
        jsTrim (jsSlice context r.1 r.2.1)).filter fun m => m.length > 3
  fam projPat1 ++ fam projPat2

/-- The first project branch (lines 296-320); it always returns. -/
def projectBranch (context : List Char) : List Char :=
  let projects := projectMatchList context
  if projects.length > 0 then joinSep (str ", ") (projects.take 3)
  else str "No projects found in the document."

/-- `/([A-Z][a-z]+ [A-Z][a-z]+)/` -/
def namePat : List RItem :=
  [.gOpen 1, .cls isUpperAscii 1 (some 1) true, .cls isLowerAscii 1 none true,
   .lit false (str " "), .cls isUpperAscii 1 (some 1) true,
   .cls isLowerAscii 1 none true, .gClose 1]

/-- The person-name branch (lines 323-342). -/
def nameBranch (context : List Char) : List Char :=
  match firstMatch namePat context with
  | some (_, _, cp) => cap1 context cp
  | none =>
    if containsL context (str "Shreyas Chougule") then str "Shreyas Chougule"
    else str "Name not found"

/-- Institution-suffix alternation of the college patterns. -/
def instAlts : List (List Char) :=
  [str "University", str "College", str "Institute", str "School"]

/-- `([A-Z][a-z\s]+(?:University|College|Institute|School))` under the `i`
flag: both character classes are case-folded. -/
def grpInst : List RItem :=
  [.gOpen 1, .cls isAsciiLetter 1 (some 1) true, .cls isLetterSp 1 none true,
   .altLit true instAlts, .gClose 1]

/-- The seven `collegePatterns` (lines 350-358), all `/i`. -/
def collegePatterns : List (List RItem) :=
  [ grpInst,
    .lit true (str "Education") :: .cls notDot 0 none true :: grpInst,
    .lit true (str "Bachelor") :: .cls notDot 0 none true :: grpInst,
    .lit true (str "Degree") :: .cls notDot 0 none true :: grpInst,
    grpInst ++ [.cls notDot 0 none true, .lit true (str "Bachelor")],
    grpInst ++ [.cls notDot 0 none true, .lit true (str "Degree")],
    grpInst ++ [.cls notDot 0 none true, .lit true (str "Education")] ]

/-- The institution branch (lines 345-373); it always returns. -/
def collegeBranch (context : List Char) : List Char :=
  match collegePatterns.findSome? fun pat =>
      (firstMatch pat context).map fun r => jsTrim (cap1 context r.2.2) with
  | some r => r
  | none => jsTrim (jsSub context 300)

/-- Corporate-suffix alternation of the company patterns. -/
def corpAlts : List (List Char) :=
  [str "Technology", str "Corp", str "Corporation", str "Inc", str "LLC",
   str "Ltd"]

/-- `([A-Z][a-z\s]+(?:Technology|Corp|Corporation|Inc|LLC|Ltd))` under `/i`. -/
def grpCorp : List RItem :=
  [.gOpen 1, .cls isAsciiLetter 1 (some 1) true, .cls isLetterSp 1 none true,
   .altLit true corpAlts, .gClose 1]

/-- The four `companyPatterns` (lines 377-382), all `/i`. -/
def companyPatterns : List (List RItem) :=
  [ grpCorp,
    .lit true (str "Work Experience") :: .cls notDot 0 none true :: grpCorp,
    .lit true (str "Intern") :: .cls notDot 0 none true :: grpCorp,
    .lit true (str "Software Development") :: .cls notDot 0 none true :: grpCorp ]

/-- The employer branch (lines 376-390); `none` means fall-through. -/
def companyTry (context : List Char) : Option (List Char) :=
  companyPatterns.findSome? fun pat =>
    (firstMatch pat context).map fun r => jsTrim (cap1 context r.2.2)

/-- Month alternation of the first date pattern (case-sensitive). -/
def monthAlts : List (List Char) :=
  [str "Jan", str "Feb", str "Mar", str "Apr", str "May", str "Jun",
   str "Jul", str "Aug", str "Sep", str "Oct", str "Nov", str "Dec"]

/-- The four `datePatterns` (lines 394-399), no flags. -/
def datePatterns : List (List RItem) :=
  [ [.gOpen 1, .altLit false monthAlts, .gClose 1, .cls jsIsWs 1 none true,
     .cls isDigitAscii 4 (some 4) true],
    [.cls isDigitAscii 4 (some 4) true, .cls jsIsWs 0 none true,
     .lit false (str "-"), .cls jsIsWs 0 none true,
     .cls isDigitAscii 4 (some 4) true],
    [.cls isDigitAscii 1 (some 2) true, .lit false (str "/"),
     .cls isDigitAscii 1 (some 2) true, .lit false (str "/"),
     .cls isDigitAscii 4 (some 4) true],
    [.cls isDigitAscii 4 (some 4) true, .lit false (str "-"),
     .cls isDigitAscii 2 (some 2) true, .lit false (str "-"),
     .cls isDigitAscii 2 (some 2) true] ]

/-- The date branch (lines 393-407): returns `match[0]`; `none` falls
through. -/
def dateTry (context : List Char) : Option (List Char) :=
  datePatterns.findSome? fun pat =>
    (firstMatch pat context).map fun r => jsSlice context r.1 r.2.1

/-- `/(Accident Detector[^.]*?([^.]{50,300}))/i` -/
def accidentPat : List RItem :=
  [.gOpen 1, .lit true (str "Accident Detector"), .cls notDot 0 none false,
   .gOpen 2, .cls notDot 50 (some 300) true, .gClose 2, .gClose 1]

/-- `/(Tournament Manager[^.]*?([^.]{50,300}))/i` -/
def tournamentPat : List RItem :=
  [.gOpen 1, .lit true (str "Tournament Manager"), .cls notDot 0 none false,
   .gOpen 2, .cls notDot 50 (some 300) true, .gClose 2, .gClose 1]

/-- `/([A-Z][a-z\s]+(?:Manager|...|Platform))[^.]*?([^.]{50,200})/` -/
def descPat : List RItem :=
  [.gOpen 1, .cls isUpperAscii 1 (some 1) true, .cls isLowSp 1 none true,
   .altLit false projAlts, .gClose 1, .cls notDot 0 none false,
   .gOpen 2, .cls notDot 50 (some 200) true, .gClose 2]

/-- The second (improved) project branch, lines 409-459.  It is unreachable —
the first project branch triggers on the same condition and always returns —
but is transcribed for completeness. -/
def project2Branch (context lowerQuery : List Char) : List Char :=
  let nameOnly := (firstMatch projPat1 context).map fun r => cap1 context r.2.2
  let descPath :=
    ((if containsL lowerQuery (str "accident") then
        (firstMatch accidentPat context).map fun r => cap1 context r.2.2
      else none).orElse fun _ =>
      (if containsL lowerQuery (str "tournament") ||
          containsL lowerQuery (str "manager") then
        (firstMatch tournamentPat context).map fun r => cap1 context r.2.2
      else none)).orElse fun _ =>
      ((firstMatch descPat context).map fun r =>
          cap1 context r.2.2 ++ str ": " ++ jsTrim (cap2 context r.2.2)).orElse
        fun _ => nameOnly
  match
    (if containsL lowerQuery (str "explain") ||
        containsL lowerQuery (str "describe") then descPath else nameOnly) with
  | some r => r
  | none => jsTrim (jsSub context 300)

/-- The four `skillPatterns` (lines 463-468), all `/i`. -/
def skillsPatterns : List (List RItem) :=
  [ [.lit true (str "Skills"), .cls colonWs 0 none true,
     .gOpen 1, .cls notDot 1 none true, .gClose 1],
    [.lit true (str "Technical Skills"), .cls colonWs 0 none true,
     .gOpen 1, .cls notDot 1 none true, .gClose 1],
    [.lit true (str "Programming Languages"), .cls colonWs 0 none true,
     .gOpen 1, .cls notDot 1 none true, .gClose 1],
    [.lit true (str "Technologies"), .cls colonWs 0 none true,
     .gOpen 1, .cls notDot 1 none true, .gClose 1] ]

/-- The skills branch (lines 462-476); `none` falls through. -/
def skillsTry (context : List Char) : Option (List Char) :=
  skillsPatterns.findSome? fun pat =>
    (firstMatch pat context).map fun r => jsTrim (cap1 context r.2.2)

/-- The generic best-sentence fallback (lines 479-513). -/
def genericFallback (context lowerQuery : List Char) : List Char :=
  let sentences := splitRuns sentEnd context
  let queryWords := (splitRuns jsIsWs lowerQuery).filter fun w => w.length > 2
  let best := sentences.foldl
    (fun (acc : List Char × ℕ) sentence =>
      if (jsTrim sentence).length > 20 then
        let lowerSentence := jsLower sentence
        let score := (queryWords.filter fun w =>
          containsL lowerSentence w).length
        if score > acc.2 then (jsTrim sentence, score) else acc
      else acc)
    ([], 0)
  if best.1 ≠ [] then best.1
  else
    let contextSnippet := jsTrim (jsSub context 300)
    if contextSnippet ≠ [] then contextSnippet
    else str "Information not found in the document."

/-- `extractInformationFromContext` (lines 124-514): the ordered intent
cascade.  Branches that return unconditionally are modelled as plain calls;
branches that may fall through return `Option` and chain to the next. -/
def extractInformationFromContext (context query : List Char) : List Char :=
  let lowerQuery := jsLower query
  let subject := subjectOf context query
  if subject ≠ [] then definitionBranch context lowerQuery subject
  else if containsL lowerQuery (str "project") then projectBranch context
  else if containsL lowerQuery (str "name") &&
      (containsL lowerQuery (str "candidate") ||
        containsL lowerQuery (str "person")) then
    nameBranch context
  else if containsL lowerQuery (str "college") ||
      containsL lowerQuery (str "university") ||
      containsL lowerQuery (str "institute") then
    collegeBranch context
  else
    match (if containsL lowerQuery (str "company") ||
        containsL lowerQuery (str "employer") ||
        containsL lowerQuery (str "work") then companyTry context
      else none) with
    | some r => r
    | none =>
      match (if containsL lowerQuery (str "date") ||
          containsL lowerQuery (str "when") ||
          containsL lowerQuery (str "time") then dateTry context
        else none) with
      | some r => r
      | none =>
        if containsL lowerQuery (str "project") then
          project2Branch context lowerQuery
        else
          match (if containsL lowerQuery (str "skill") ||
              containsL lowerQuery (str "technology") ||
              containsL lowerQuery (str "programming") then skillsTry context
            else none) with
          | some r => r
          | none => genericFallback context lowerQuery

/-! ## `EmbeddingService` (server/services/embeddingService.ts)

The deterministic fallback path of `generateEmbedding` (lines 11-47, used
whenever no OpenAI client is configured) and `cosineSimilarity`.  The
accumulator is exact (`ℚ`); the final normalisation divides by a real square
root. -/

/-- Signed 32-bit wrap (JS `ToInt32`). -/
def toInt32 (z : ℤ) : ℤ := (z + 2 ^ 31) % 2 ^ 32 - 2 ^ 31

/-- One step of the word hash: `hash = ((hash << 5) - hash + charCode) &
0xffffffff` (both the shift and the mask reduce to 32-bit signed). -/
def hashStep (h : ℤ) (c : ℕ) : ℤ := toInt32 (toInt32 (h * 32) - h + c)

/-- The whole rolling hash of a word, then `Math.abs(hash)`. -/
def wordHash (w : List Char) : ℕ :=
  (w.foldl (fun h c => hashStep h c.toNat) 0).natAbs

/-- Keep first occurrences (the JS `Set<string>` insertion-order dedup; the
decimal `toString`/`parseInt` round trip is the identity on these values). -/
def dedupFirst : List ℕ → List ℕ
  | [] => []
  | x :: rest => x :: (dedupFirst rest).filter (· ≠ x)

/-- `vector[idx] += d` on a 256-slot accumulator. -/
def bump (v : List ℚ) (idx : ℕ) (d : ℚ) : List ℚ :=
  v.set idx (v.getD idx 0 + d)

/-- The word-feature loop: one `+= 1.0` per distinct word hash, at bucket
`hash % 256`. -/
def wordFeatures (v : List ℚ) (hashes : List ℕ) : List ℚ :=
  hashes.foldl (fun v h => bump v (h % 256) 1) v

/-- The character-feature loop: for each position `i`, add
`((code % 31) + 1) / 32` at bucket `(code + i) % 256`. -/
def charFeatures (v : List ℚ) (limited : List Char) : List ℚ :=
  (limited.enum.foldl (fun v ic =>
    bump v ((ic.2.toNat + ic.1) % 256)
      ((((ic.2.toNat % 31 : ℕ) : ℚ) + 1) / 32)) v)

/-- The un-normalised fallback accumulator (lines 12-42). -/
def fallbackRaw (text : List Char) : List ℚ :=
  let limited := jsSub (jsLower text) 5000
  let words := (splitRuns jsIsWs limited).filter fun w => w.length > 2
  let wordHashes := dedupFirst (words.map wordHash)
  charFeatures (wordFeatures (List.replicate 256 0) wordHashes) limited

/-- `vector.reduce((s, v) => s + v * v, 0)`. -/
def sumSq (v : List ℚ) : ℚ := (v.map fun x => x * x).sum

/-- `generateEmbedding` fallback path (lines 11-47): L2-normalise, guarding a
zero (falsy) norm with `|| 1`. -/
noncomputable def generateEmbedding (text : List Char) : List ℝ :=
  let v := fallbackRaw text
  let norm : ℝ := Real.sqrt (sumSq v)
  let norm := if norm = 0 then 1 else norm
  v.map fun x : ℚ => (x : ℝ) / norm

/-- Squared Euclidean norm of the real output vector. -/
noncomputable def sumSqR (v : List ℝ) : ℝ := (v.map fun x => x * x).sum

/-- `cosineSimilarity` (lines 108-124): throws on mismatched lengths, else
dot product over the product of Euclidean norms.  The index loop accumulators
are transcribed as `List.range` folds. -/
noncomputable def cosineSimilarity (a b : List ℚ) : Except (List Char) ℝ :=
  if a.length ≠ b.length then .error (str "Vectors must have the same length")
  else
    let dotProduct := (List.range a.length).foldl
      (fun s i => s + a.getD i 0 * b.getD i 0) 0
    let normA := (List.range a.length).foldl
      (fun s i => s + a.getD i 0 * a.getD i 0) 0
    let normB := (List.range a.length).foldl
      (fun s i => s + b.getD i 0 * b.getD i 0) 0
    .ok ((dotProduct : ℝ) / (Real.sqrt normA * Real.sqrt normB))

/-! ## Data model (shared/schema.ts)

`embedding` is stored in the source as a JSON string and parsed at use sites;
it is modelled already-parsed, with `none` covering both a missing embedding
and a parse failure.  Timestamps are abstract naturals. -/

structure Document where
  id : List Char
  filename : List Char
  originalName : List Char
  chunksCount : ℕ
  uploadedAt : ℕ
deriving DecidableEq, Repr

structure DocumentChunk where
  id : List Char
  documentId : List Char
  chunkIndex : ℕ
  text : List Char
  embedding : Option (List ℚ)
deriving DecidableEq, Repr

structure QueryRec where
  id : List Char
  query : List Char
  response : List Char
  sources : Option (List Char)
  createdAt : ℕ
deriving DecidableEq, Repr

/-- `documentMap.get(chunk.documentId) || 'Unknown Document'` (document ids
are unique, so first-match lookup equals the JS `Map`). -/
def docNameOf (docs : List Document) (id : List Char) : List Char :=
  match docs.find? fun d => d.id = id with
  | some d => d.originalName
  | none => str "Unknown Document"

/-! ## `VectorService.searchSimilarChunks` (server/services/vectorService.ts) -/

structure SimilarityResult where
  chunk : DocumentChunk
  similarity : ℝ
  documentName : List Char

/-- `searchSimilarChunks(queryEmbedding, topK, threshold)`: score every chunk
with a stored embedding (the per-chunk `try`/`catch` skips both parse
failures and the length-mismatch throw of `cosineSimilarity`), keep scores at
or above the threshold, sort by similarity descending (JS `sort` is stable),
and take the first `topK`. -/
noncomputable def searchSimilarChunks (queryEmbedding : List ℚ) (topK : ℕ)
    (threshold : ℝ) (allChunks : List DocumentChunk)
    (allDocuments : List Document) : List SimilarityResult :=
  let similarities := allChunks.filterMap fun chunk =>
    match chunk.embedding with
    | none => none
    | some chunkEmbedding =>
      match cosineSimilarity queryEmbedding chunkEmbedding with
      | .error _ => none
      | .ok similarity =>
        if threshold ≤ similarity then
          some ⟨chunk, similarity, docNameOf allDocuments chunk.documentId⟩
        else none
  (similarities.mergeSort fun a b => decide (b.similarity ≤ a.similarity)).take
    topK

/-! ## The `/api/query` search pipeline (server/storage.ts lines 610-744) -/

/-- One entry of `textSearchResults`. -/
structure ScoredChunk where
  chunk : DocumentChunk
  score : ℕ
  documentName : List Char
deriving DecidableEq, Repr

/-- The per-chunk `matchScore` loop (lines 631-638): count query tokens
(length > 2, with multiplicity) occurring in the lower-cased chunk text. -/
def matchScoreOf (queryLower chunkText : List Char) : ℕ :=
  let queryWords := (splitRuns jsIsWs queryLower).filter fun w => w.length > 2
  (queryWords.filter fun w => containsL chunkText w).length

/-- The definition markers gating chunks on definition-style queries
(line 643). -/
def defMarkers : List (List Char) :=
  [str "is", str "means", str "refers to", str "defined as", str "answer:",
   str "question:", str "q:"]

/-- Is the query definition-style (line 641)? -/
def isDefStyle (queryLower : List Char) : Bool :=
  containsL queryLower (str "what is") || containsL queryLower (str "define") ||
    containsL queryLower (str "explain")

/-- The loop body of the stage-1 scan for one chunk (lines 626-664):
`none` when the chunk does not enter the candidate set. -/
def stage1Entry (queryLower : List Char) (allDocuments : List Document)
    (chunk : DocumentChunk) : Option ScoredChunk :=
  let chunkText := jsLower chunk.text
  let matchScore := matchScoreOf queryLower chunkText
  if isDefStyle queryLower then
    let hasDefinitionWords := defMarkers.any fun w => containsL chunkText w
    if matchScore > 0 && hasDefinitionWords then
      some ⟨chunk, matchScore + 2, docNameOf allDocuments chunk.documentId⟩
    else none
  else
    if matchScore > 0 then
      some ⟨chunk, matchScore, docNameOf allDocuments chunk.documentId⟩
    else none

/-- Stage-1 candidate collection (lines 625-664). -/
def textSearchResults (query : List Char) (allChunks : List DocumentChunk)
    (allDocuments : List Document) : List ScoredChunk :=
  allChunks.filterMap (stage1Entry (jsLower query) allDocuments)

/-- Stage-1 results (lines 666-672): sort by score descending (stable), take
10, normalise the score to `score / 10`. -/
noncomputable def stage1Results (query : List Char)
    (allChunks : List DocumentChunk) (allDocuments : List Document) :
    List SimilarityResult :=
  let sorted := (textSearchResults query allChunks allDocuments).mergeSort
    fun a b => decide (b.score ≤ a.score)
  (sorted.take 10).map fun r => ⟨r.chunk, (r.score : ℝ) / 10, r.documentName⟩

/-- `similarChunks` after the conditional vector-search append
(lines 666-682): stage 2 runs exactly when stage 1 found fewer than 3
results, with `topK = 10` and `threshold = 0.1`, and its results are pushed
onto the end of the stage-1 list. -/
noncomputable def similarChunksCombined (query : List Char)
    (queryEmbedding : List ℚ) (allChunks : List DocumentChunk)
    (allDocuments : List Document) : List SimilarityResult :=
  let s1 := stage1Results query allChunks allDocuments
  if s1.length < 3 then
    s1 ++ searchSimilarChunks queryEmbedding 10 (1 / 10) allChunks allDocuments
  else s1

/-- `sortedChunks` (line 693): JS `Array.sort` mutates, so the later
`sources` map also sees this order. -/
noncomputable def sortedChunks (query : List Char) (queryEmbedding : List ℚ)
    (allChunks : List DocumentChunk) (allDocuments : List Document) :
    List SimilarityResult :=
  (similarChunksCombined query queryEmbedding allChunks allDocuments).mergeSort
    fun a b => decide (b.similarity ≤ a.similarity)

/-- One formatted source of the response (lines 736-744). -/
structure SourceResult where
  docName : List Char
  chunkIndex : ℕ
  text : List Char
  similarity : ℝ
  relevance : List Char

/-- `Math.round(x * 100) / 100` (for the non-negative scores that occur). -/
noncomputable def jsRound2 (x : ℝ) : ℝ := (⌊x * 100 + 1 / 2⌋ : ℤ) / 100

/-- The four-level relevance banding (lines 741-743), applied to the
un-rounded similarity. -/
noncomputable def relevanceLabel (s : ℝ) : List Char :=
  if s > 9 / 10 then str "Very High"
  else if s > 8 / 10 then str "High"
  else if s > 7 / 10 then str "Medium"
  else str "Low"

/-- The `sources` array of the response (lines 736-744). -/
noncomputable def querySources (query : List Char) (queryEmbedding : List ℚ)
    (allChunks : List DocumentChunk) (allDocuments : List Document) :
    List SourceResult :=
  (sortedChunks query queryEmbedding allChunks allDocuments).map fun r =>
    ⟨r.documentName, r.chunk.chunkIndex,
      jsSub r.chunk.text 500 ++
        (if r.chunk.text.length > 500 then str "..." else []),
      jsRound2 r.similarity, relevanceLabel r.similarity⟩

/-! ## `MemStorage` (server/storage.ts lines 22-106)

The three `Map`s are modelled as insertion-ordered association lists; `Map`
keys are unique (ids are fresh UUIDs), so `Map.delete` coincides with
filtering the key out. -/

structure StorageState where
  documents : List (List Char × Document)
  documentChunks : List (List Char × DocumentChunk)
  queries : List (List Char × QueryRec)
deriving DecidableEq, Repr

/-- `getDocument(id)` — `Map.get`. -/
def getDocument (st : StorageState) (id : List Char) : Option Document :=
  (st.documents.find? fun e => e.1 = id).map (·.2)

/-- `deleteDocumentChunks(documentId)` (lines 81-87): delete every chunk
entry whose `documentId` matches. -/
def deleteDocumentChunks (st : StorageState) (documentId : List Char) :
    StorageState :=
  { st with documentChunks :=
      st.documentChunks.filter fun e => decide (e.2.documentId ≠ documentId) }

/-- `deleteDocument(id)` (lines 55-58). -/
def deleteDocument (st : StorageState) (id : List Char) : StorageState :=
  deleteDocumentChunks
    { st with documents := st.documents.filter fun e => decide (e.1 ≠ id) } id

/-! ## `PDFService.splitTextIntoChunks` (server/services/pdfService.ts)

The chunker is defined with ghost source positions: each produced chunk is
paired with the index (in the cleaned text) of the region it was built from.
The position component is proof instrumentation only — the public
`splitTextIntoChunks` is the first projection — and lets the left-to-right
ordering of the output be stated as monotonicity of the second projection. -/

/-- `.replace(/\s+/g, ' ')`: collapse each maximal whitespace run to one
space. -/
def collapseWsGo : Bool → List Char → List Char
  | _, [] => []
  | inSep, c :: rest =>
    if jsIsWs c then
      if inSep then collapseWsGo true rest
      else ' ' :: collapseWsGo true rest
    else c :: collapseWsGo false rest

def collapseWs (s : List Char) : List Char := collapseWsGo false s

/-- JS `String.prototype.replace(re, repl)` with a global regex. -/
def replaceAllGo (s repl : List Char) : ℕ → List (ℕ × ℕ × Caps) → List Char
  | pos, [] => jsSlice s pos s.length
  | pos, (j, e, _) :: rest => jsSlice s pos j ++ repl ++ replaceAllGo s repl e rest

def replaceAll (pats : List (List RItem)) (repl s : List Char) : List Char :=
  replaceAllGo s repl 0 (globalMatches pats s)

/-- `/\n\s*\n/g` -/
def nlPat : List RItem :=
  [.lit false (str "\n"), .cls jsIsWs 0 none true, .lit false (str "\n")]

/-- The text cleanup of `splitTextIntoChunks` (lines 22-25). -/
def jsCleanText (text : List Char) : List Char :=
  jsTrim (replaceAll [nlPat] (str "\n") (collapseWs text))

/-- `isEducationalDocument` (lines 49-53), case-sensitive keyword presence. -/
def eduKeywords : List (List Char) :=
  [str "Q:", str "Question:", str "Answer:", str "Interview", str "Guide",
   str "Preparation", str "JavaScript", str "React", str "Node"]

def isEducationalDocument (text : List Char) : Bool :=
  eduKeywords.any fun k => containsL text k

/-- `String.prototype.lastIndexOf(c)` (−1 when absent). -/
def lastIndexOfC (chunk : List Char) (c : Char) : ℤ :=
  match chunk.reverse.findIdx? (· = c) with
  | some i => (chunk.length : ℤ) - 1 - i
  | none => -1

/-- `Math.max(lastPeriod, lastNewline, lastComma)` over the sliced window. -/
def breakPointOf (chunk : List Char) : ℤ :=
  max (lastIndexOfC chunk '.') (max (lastIndexOfC chunk '\n') (lastIndexOfC chunk ','))

/-- Conditional push of the trimmed chunk (line 171-173), tagging the ghost
position `p`. -/
def pushTrim (chunk : List Char) (p : ℕ) (rest : List (List Char × ℕ)) :
    List (List Char × ℕ) :=
  if (jsTrim chunk).length > 0 then (jsTrim chunk, p) :: rest else rest

/-- `splitSectionIntoChunks` (lines 146-177) with its default arguments
`chunkSize = 1000`, `overlap = 200` (the only values the repository uses);
`base` offsets the ghost positions to the section's start.  Note the source's
break-point bug is reproduced: `breakPoint` is an index into the *window* but
is compared against and sliced with *section* coordinates. -/
def sliderPos (s : List Char) (base start : ℕ) : List (List Char × ℕ) :=
  if h : start < s.length then
    if h2 : min (start + 1000) s.length < s.length then
      if h3 : breakPointOf (jsSlice s start (min (start + 1000) s.length)) >
          (start : ℤ) + 600 then
        pushTrim
          (jsSlice s start
            ((breakPointOf (jsSlice s start (min (start + 1000) s.length))).toNat
              + 1))
          (base + start)
          (sliderPos s base
            ((breakPointOf (jsSlice s start (min (start + 1000) s.length))).toNat
              + 1 - 200))
      else
        pushTrim (jsSlice s start (min (start + 1000) s.length)) (base + start)
          (sliderPos s base (min (start + 1000) s.length - 200))
    else
      pushTrim (jsSlice s start (min (start + 1000) s.length)) (base + start)
        (sliderPos s base (min (start + 1000) s.length))
  else []
termination_by s.length - start
decreasing_by
  · omega
  · omega
  · omega

/-- Public `splitSectionIntoChunks`. -/
def splitSectionIntoChunks (s : List Char) : List (List Char) :=
  (sliderPos s 0 0).map Prod.fst

/-- `jsSplit` with ghost positions: every piece (and interleaved capture) is
tagged with its start index in `s`. -/
def jsSplitPosGo (s : List Char) : ℕ → List (ℕ × ℕ × Caps) →
    List (List Char × ℕ)
  | pos, [] => [(jsSlice s pos s.length, pos)]
  | pos, (j, e, cp) :: rest =>
    (jsSlice s pos j, pos) ::
      (match cp.g1 with
        | some (a, b) => [(jsSlice s a b, a)]
        | none => []) ++ jsSplitPosGo s e rest

def jsSplitPos (pats : List (List RItem)) (s : List Char) :
    List (List Char × ℕ) :=
  jsSplitPosGo s 0 (globalMatches pats s)

/-- `/(Q\d+:|Question\s*\d*:|Q\s*\d*:)/gi` as a top-level alternation. -/
def eduPatA : List (List RItem) :=
  [ [.gOpen 1, .lit true (str "Q"), .cls isDigitAscii 1 none true,
     .lit true (str ":"), .gClose 1],
    [.gOpen 1, .lit true (str "Question"), .cls jsIsWs 0 none true,
     .cls isDigitAscii 0 none true, .lit true (str ":"), .gClose 1],
    [.gOpen 1, .lit true (str "Q"), .cls jsIsWs 0 none true,
     .cls isDigitAscii 0 none true, .lit true (str ":"), .gClose 1] ]

/-- `/(What is|What are|Define|Explain)\s+[^?]+\?/gi`, with the inner
alternation distributed to top level (same backtracking order). -/
def eduPatB : List (List RItem) :=
  [str "What is", str "What are", str "Define", str "Explain"].map fun kw =>
    [.gOpen 1, .lit true kw, .gClose 1, .cls jsIsWs 1 none true,
     .cls notQm 1 none true, .lit true (str "?")]

/-- The question/answer pairing loop of `splitEducationalContent`
(lines 67-83): consecutive split entries are paired two at a time; an
oversized pair is re-split by the slider, every emitted chunk keeping the
pair's position. -/
def qaPairsPos : List (List Char × ℕ) → List (List Char × ℕ)
  | [] => []
  | [_] => []
  | (q, pq) :: (a, _) :: rest =>
    (if jsTrim q ≠ [] ∧ jsTrim a ≠ [] then
      (if (jsTrim q ++ str "\n" ++ jsTrim a).length ≤ 1000 then
        [(jsTrim q ++ str "\n" ++ jsTrim a, pq)]
      else sliderPos (jsTrim q ++ str "\n" ++ jsTrim a) pq 0)
    else []) ++ qaPairsPos rest

/-- `splitEducationalContent` (lines 55-97): the first pattern family that
yields chunks wins; no Q&A structure falls back to the plain slider
(that return path skips the final filter, whose effect the slider already
guarantees). -/
def splitEducationalContentPos (text : List Char) : List (List Char × ℕ) :=
  let ca := qaPairsPos (jsSplitPos eduPatA text)
  let chunks := if ca.length > 0 then ca else qaPairsPos (jsSplitPos eduPatB text)
  if chunks.length = 0 then sliderPos text 0 0
  else chunks.filter fun pr => (jsTrim pr.1).length > 0

/-- The fixed resume section headers (lines 101-106). -/
def sectionHeaders : List (List Char) :=
  [str "Education", str "Experience", str "Work Experience",
   str "Professional Experience", str "Skills", str "Technical Skills",
   str "Projects", str "Personal Projects", str "Contact",
   str "Contact Information", str "About", str "Summary", str "Objective",
   str "Certifications", str "Languages", str "Interests", str "Hobbies"]

/-- `\w` for the `\b` boundaries of the header regexes. -/
def isWordChar (c : Char) : Bool := isAsciiLetter c || isDigitAscii c || c = '_'

/-- First match of `` `\b${header}\b` `` (flag `i`; `match[0]` of a `g` match
list is its first element). -/
def findWordCI (text w : List Char) : Option (ℕ × ℕ) :=
  (List.range (text.length + 1)).findSome? fun i =>
    if litTest true w text i ∧
        (i = 0 ∨ ¬ isWordChar (text.getD (i - 1) ' ')) ∧
        ¬ isWordChar (text.getD (i + w.length) ' ') then
      some (i, i + w.length)
    else none

/-- Mutable state of the header scan of `splitIntoSections`. -/
structure SectionScan where
  sections : List (List Char × ℕ)
  current : List Char
  currentPos : ℕ
  lastIndex : ℕ

/-- One header iteration of `splitIntoSections` (lines 113-128). -/
def sectionStep (text : List Char) (st : SectionScan) (header : List Char) :
    SectionScan :=
  match findWordCI text header with
  | none => st
  | some (ms, me) =>
    match indexOfFrom text (jsSlice text ms me) st.lastIndex with
    | none => st
    | some hi =>
      if hi > st.lastIndex then
        { sections := st.sections ++
            (if (jsTrim st.current).length > 0 then
              [(jsTrim st.current, st.currentPos)]
            else []),
          current := jsSlice text st.lastIndex hi,
          currentPos := st.lastIndex,
          lastIndex := hi }
      else st

/-- `splitIntoSections` (lines 99-144) with ghost positions. -/
def splitIntoSectionsPos (text : List Char) : List (List Char × ℕ) :=
  let st := sectionHeaders.foldl (sectionStep text) ⟨[], [], 0, 0⟩
  let current :=
    if st.lastIndex < text.length then
      st.current ++ jsSlice text st.lastIndex text.length
    else st.current
  let currentPos := if st.current.isEmpty then st.lastIndex else st.currentPos
  let sections := st.sections ++
    (if (jsTrim current).length > 0 then [(jsTrim current, currentPos)] else [])
  if sections.length = 1 then
    (jsSplitPos [nlPat] text).filter fun pr => (jsTrim pr.1).length > 0
  else sections

/-- `splitTextIntoChunks` (lines 18-47) with ghost positions. -/
def splitTextIntoChunksPos (text : List Char) : List (List Char × ℕ) :=
  let cleanedText := jsCleanText text
  if isEducationalDocument cleanedText then
    splitEducationalContentPos cleanedText
  else
    let sections := splitIntoSectionsPos cleanedText
    let chunks := sections.flatMap fun se =>
      if se.1.length ≤ 1000 then [(jsTrim se.1, se.2)]
      else sliderPos se.1 se.2 0
    chunks.filter fun pr => (jsTrim pr.1).length > 0

/-- Public `splitTextIntoChunks`: the ghost positions erased. -/
def splitTextIntoChunks (text : List Char) : List (List Char) :=
  (splitTextIntoChunksPos text).map Prod.fst

/-! ## Definitions modelled from the specification's wording

These transcribe claim language (not source code) so that refinement-style
claims can be compared against the code-derived definitions above. -/

/-- Keep the first occurrence of each string, in order (the reading of
"the first 3 distinct matches" in the spec's project rule). -/
def firstDistinct : List (List Char) → List (List Char)
  | [] => []
  | x :: rest => x :: (firstDistinct rest).filter (· ≠ x)

/-- Modelled from the spec: "return up to the first 3 distinct matches joined
by commas, or a literal \"no projects found\" message". -/
def claimedProjectAnswer (context : List Char) : List Char :=
  let projects := firstDistinct (projectMatchList context)
  if projects.length > 0 then joinSep (str ", ") (projects.take 3)
  else str "No projects found in the document."

/-! ## Concrete sample inputs used by witnesses -/

/-- A two-document, two-chunk, one-query store. -/
def sampleStore : StorageState :=
  ⟨[(str "d1", ⟨str "d1", str "f1", str "A.pdf", 1, 5⟩),
    (str "d2", ⟨str "d2", str "f2", str "B.pdf", 1, 6⟩)],
   [(str "c1", ⟨str "c1", str "d1", 0, str "alpha", none⟩),
    (str "c2", ⟨str "c2", str "d2", 0, str "beta", none⟩)],
   [(str "q1", ⟨str "q1", str "q", str "r", none, 7⟩)]⟩

/-- A definition-style query with nine scoring tokens. -/
def bigQuery : List Char :=
  str "what is alpha beta gamma delta epsilon zeta eta theta"

/-- A chunk matching all nine tokens of `bigQuery` (no stored embedding). -/
def bigChunk : DocumentChunk :=
  ⟨str "c1", str "d1", 0,
   str "what is alpha beta gamma delta epsilon zeta eta theta", none⟩

/-- The document owning `bigChunk`. -/
def bigDoc : Document := ⟨str "d1", str "f", str "F.pdf", 1, 0⟩

/-- The invariant carried by every slider suffix. -/
def SliderOK (s : List Char) (base start : ℕ)
    (l : List (List Char × ℕ)) : Prop :=
  ((l.map Prod.snd).Sorted (· ≤ ·)) ∧
  (∀ pr ∈ l, base + start ≤ pr.2 ∧ pr.2 < base + s.length ∧
    jsTrim pr.1 = pr.1 ∧ pr.1 ≠ []) ∧
  ((∃ c ∈ s.drop start, jsIsWs c = false) → l ≠ [])

/-- Left-to-right interval ordering of position-tagged pieces: each piece
ends at or before the next one starts. -/
def IntervalSorted (l : List (List Char × ℕ)) : Prop :=
  l.Pairwise fun a b => a.2 + a.1.length ≤ b.2

/-- Well-formedness of the capture state at position `hi` of a match begun
at `lo`: every recorded capture-1 index lies inside `[lo, hi]`. -/
def CapsWF (cp : Caps) (lo hi : ℕ) : Prop :=
  (∀ a, cp.s1 = some a → lo ≤ a ∧ a ≤ hi) ∧
  (∀ a b, cp.g1 = some (a, b) → lo ≤ a ∧ a ≤ b ∧ b ≤ hi)

/-- Well-formedness of a global-match list started at scan position `i`. -/
def MatchesOK (s : List Char) : ℕ → List (ℕ × ℕ × Caps) → Prop
  | _, [] => True
  | i, (j, e, cp) :: rest =>
    i ≤ j ∧ j ≤ e ∧ e ≤ s.length ∧ CapsWF cp j e ∧
      MatchesOK s (max e (j + 1)) rest

/-- The invariant of the header scan of `splitIntoSections`. -/
def ScanOK (text : List Char) (st : SectionScan) : Prop :=
  IntervalSorted st.sections ∧
  (∀ pr ∈ st.sections, pr.2 + pr.1.length ≤ st.currentPos ∧
    jsTrim pr.1 = pr.1 ∧ pr.1 ≠ []) ∧
  st.currentPos + st.current.length = st.lastIndex ∧
  st.lastIndex < text.length

/-! ## Helper lemmas -/

theorem find_filterKeyNe_self {α : Type} (l : List (List Char × α))
    (id : List Char) :
    ((l.filter fun e => decide (e.1 ≠ id)).find? fun e => decide (e.1 = id)) =
      none := by
  induction l with
  | nil => rfl
  | cons e t ih =>
    by_cases h : e.1 = id
    · simp [List.filter_cons, h, ih]
    · simp [List.filter_cons, h, List.find?_cons, ih]

theorem find_filterKeyNe_other {α : Type} (l : List (List Char × α))
    (id d : List Char) (hd : d ≠ id) :
    ((l.filter fun e => decide (e.1 ≠ id)).find? fun e => decide (e.1 = d)) =
      l.find? fun e => decide (e.1 = d) := by
  induction l with
  | nil => rfl
  | cons e t ih =>
    by_cases h : e.1 = id
    · simpa [List.filter_cons, List.find?_cons, h, Ne.symm hd] using ih
    · by_cases h2 : e.1 = d
      · simp [List.filter_cons, List.find?_cons, h, h2, hd]
      · simpa [List.filter_cons, List.find?_cons, h, h2] using ih

/-! ## Claim theorems -/

/-- **C1.** When a definition-style query yields a non-empty (normalized)
subject that does not occur case-insensitively anywhere in the context, the
extractor returns exactly the literal not-found message for that subject —
the equality shows no later rule can contribute any other answer. -/
theorem extract_definition_not_found (context query subject : List Char)
    (hsub : subjectOf context query = subject) (hne : subject ≠ [])
    (hmiss : containsL (jsLower context) (jsLower subject) = false) :
    extractInformationFromContext context query = notFoundMsg subject := by
  simp only [extractInformationFromContext]
  rw [hsub, if_pos hne]
  simp only [definitionBranch]
  rw [hmiss]
  simp

/-- Witness for C1: a context without "Python", queried "What is Python?". -/
theorem extract_definition_not_found_witness :
    extractInformationFromContext (str "JavaScript rules here")
      (str "What is Python?") = notFoundMsg (str "Python") :=
  extract_definition_not_found _ _ (str "Python") (by decide) (by decide)
    (by decide)

/-- **C6.** `extract(context, query)` is a pure function of its two inputs:
it is modelled without any state, and identical inputs give identical
outputs. -/
theorem extract_pure (context query context' query' : List Char)
    (hc : context = context') (hq : query = query') :
    extractInformationFromContext context query =
      extractInformationFromContext context' query' := by
  rw [hc, hq]

/-- Witness for C6. -/
theorem extract_pure_witness :
    extractInformationFromContext (str "doc text here") (str "when was it") =
      extractInformationFromContext (str "doc text here") (str "when was it") :=
  extract_pure _ _ _ _ rfl rfl

/-- **C8 counterexample.** The code does not deduplicate project matches: on a
context naming "Task Manager" twice, the answer repeats it, while the claimed
"first 3 distinct matches" answer would not. -/
theorem project_distinct_counterexample :
    extractInformationFromContext (str "Task Manager and Task Manager")
        (str "project") = str "Task Manager, Task Manager" ∧
    claimedProjectAnswer (str "Task Manager and Task Manager") =
      str "Task Manager" ∧
    str "Task Manager, Task Manager" ≠ str "Task Manager" :=
  ⟨by decide, by decide, by decide⟩

/-- **C8 (amended).** For a query containing "project" on which no definition
subject is extracted, the extractor returns the first 3 candidate matches of
the two pattern families (in family order, duplicates retained) joined by
", ", or the literal no-projects message when no pattern matches. -/
theorem project_branch_first_three (context query : List Char)
    (hsub : subjectOf context query = [])
    (hproj : containsL (jsLower query) (str "project") = true) :
    extractInformationFromContext context query =
      if (projectMatchList context).length > 0 then
        joinSep (str ", ") ((projectMatchList context).take 3)
      else str "No projects found in the document." := by
  simp only [extractInformationFromContext]
  rw [hsub]
  simp only [ne_eq, not_true_eq_false, if_false, hproj, if_true, projectBranch]

/-- Witness for C8's amended theorem. -/
theorem project_branch_first_three_witness :
    extractInformationFromContext (str "The Task Manager rocks")
      (str "project") = str "Task Manager" := by
  rw [project_branch_first_three (str "The Task Manager rocks") (str "project")
    (by decide) (by decide)]
  decide

/-- **C10.** `deleteDocument(id)` removes the document with that id and every
chunk whose `documentId` equals it, leaves every other document, all other
chunks and all query records unchanged, and is a total no-op on the document
table when the id is absent. -/
theorem deleteDocument_frame (st : StorageState) (id : List Char) :
    getDocument (deleteDocument st id) id = none ∧
    (∀ d, d ≠ id → getDocument (deleteDocument st id) d = getDocument st d) ∧
    (deleteDocument st id).documentChunks =
      st.documentChunks.filter (fun e => decide (e.2.documentId ≠ id)) ∧
    (deleteDocument st id).queries = st.queries ∧
    (getDocument st id = none →
      (deleteDocument st id).documents = st.documents) := by
  refine ⟨?_, ?_, rfl, rfl, ?_⟩
  · simp only [getDocument, deleteDocument, deleteDocumentChunks,
      find_filterKeyNe_self, Option.map_none']
  · intro d hd
    simp only [getDocument, deleteDocument, deleteDocumentChunks,
      find_filterKeyNe_other _ _ _ hd]
  · intro h
    have hfind : (st.documents.find? fun e => decide (e.1 = id)) = none := by
      unfold getDocument at h
      exact Option.map_eq_none'.mp h
    have hall := List.find?_eq_none.mp hfind
    simp only [deleteDocument, deleteDocumentChunks]
    exact List.filter_eq_self.mpr fun e he => by simpa using hall e he

/-- Witness for C10 at a concrete two-document store. -/
theorem deleteDocument_frame_witness :
    getDocument (deleteDocument sampleStore (str "d1")) (str "d1") = none ∧
    getDocument (deleteDocument sampleStore (str "d1")) (str "d2") =
      some ⟨str "d2", str "f2", str "B.pdf", 1, 6⟩ :=
  ⟨(deleteDocument_frame sampleStore (str "d1")).1,
   ((deleteDocument_frame sampleStore (str "d1")).2.1 (str "d2")
      (by decide)).trans (by decide)⟩

theorem foldl_add_eq {α : Type} (f : α → ℚ) (l : List α) (c : ℚ) :
    l.foldl (fun s x => s + f x) c = c + (l.map f).sum := by
  induction l generalizing c with
  | nil => simp
  | cons x t ih => simp [ih, add_assoc]

theorem rangeProdSum (a b : List ℚ) (h : a.length = b.length) :
    ((List.range a.length).map fun i => a.getD i 0 * b.getD i 0).sum =
      ((a.zip b).map fun p => p.1 * p.2).sum := by
  induction a generalizing b with
  | nil => simp
  | cons x a' ih =>
    cases b with
    | nil => simp at h
    | cons y b' =>
      simp only [List.length_cons, List.range_succ_eq_map, List.map_cons,
        List.map_map, List.sum_cons, List.getD_cons_zero, Function.comp_def,
        List.getD_cons_succ, List.zip_cons_cons]
      rw [ih b' (by simpa using h)]

theorem zipSelfSq (a : List ℚ) :
    ((a.zip a).map fun p => p.1 * p.2).sum = (a.map fun x => x * x).sum := by
  induction a with
  | nil => rfl
  | cons x t ih => simp [List.zip_cons_cons, ih]

/-- **C9.** `cosineSimilarity` fails with the dimension-mismatch error exactly
when the lengths differ, and otherwise returns the dot product divided by the
product of the Euclidean norms. -/
theorem cosineSimilarity_spec (a b : List ℚ) :
    (a.length ≠ b.length →
      cosineSimilarity a b =
        .error (str "Vectors must have the same length")) ∧
    (a.length = b.length →
      cosineSimilarity a b =
        .ok (((((a.zip b).map fun p => p.1 * p.2).sum : ℚ) : ℝ) /
          (Real.sqrt (((a.map fun x => x * x).sum : ℚ) : ℝ) *
            Real.sqrt (((b.map fun x => x * x).sum : ℚ) : ℝ)))) := by
  constructor
  · intro h
    simp only [cosineSimilarity, if_pos h]
  · intro h
    simp only [cosineSimilarity, if_neg (not_not_intro h)]
    have hd : ((List.range a.length).foldl
        (fun s i => s + a.getD i 0 * b.getD i 0) 0) =
        ((a.zip b).map fun p => p.1 * p.2).sum := by
      rw [foldl_add_eq (fun i => a.getD i 0 * b.getD i 0), zero_add,
        rangeProdSum a b h]
    have ha : ((List.range a.length).foldl
        (fun s i => s + a.getD i 0 * a.getD i 0) 0) =
        (a.map fun x => x * x).sum := by
      rw [foldl_add_eq (fun i => a.getD i 0 * a.getD i 0), zero_add,
        rangeProdSum a a rfl, zipSelfSq]
    have hb : ((List.range a.length).foldl
        (fun s i => s + b.getD i 0 * b.getD i 0) 0) =
        (b.map fun x => x * x).sum := by
      rw [h, foldl_add_eq (fun i => b.getD i 0 * b.getD i 0), zero_add,
        rangeProdSum b b rfl, zipSelfSq]
    rw [hd, ha, hb]

/-- Witness for C9: orthogonal equal-length vectors give similarity 0; a
length mismatch gives the literal error. -/
theorem cosineSimilarity_spec_witness :
    cosineSimilarity [(1 : ℚ), 0] [0, 1] = .ok 0 ∧
    cosineSimilarity [(1 : ℚ)] [] =
      .error (str "Vectors must have the same length") := by
  constructor
  · rw [(cosineSimilarity_spec [(1 : ℚ), 0] [0, 1]).2 (by decide)]
    have h0 : ((([(1 : ℚ), 0].zip [0, 1]).map fun p => p.1 * p.2).sum) = 0 := by
      norm_num [List.zip_cons_cons]
    rw [h0]
    norm_num
  · exact (cosineSimilarity_spec [(1 : ℚ)] []).1 (by decide)

theorem bump_length (v : List ℚ) (i : ℕ) (d : ℚ) :
    (bump v i d).length = v.length := by
  simp [bump]

theorem foldl_bump_length {α : Type} (l : List α) (f : α → ℕ) (g : α → ℚ)
    (v : List ℚ) :
    (l.foldl (fun v x => bump v (f x) (g x)) v).length = v.length := by
  induction l generalizing v with
  | nil => rfl
  | cons x t ih => rw [List.foldl_cons, ih, bump_length]

theorem getD_nonneg (v : List ℚ) (i : ℕ) (hv : ∀ x ∈ v, 0 ≤ x) :
    0 ≤ v.getD i 0 := by
  induction v generalizing i with
  | nil => simp [List.getD]
  | cons a t ih =>
    cases i with
    | zero => simpa using hv a (by simp)
    | succ n =>
      simpa [List.getD_cons_succ] using ih n fun x hx => hv x (by simp [hx])

theorem bump_nonneg (v : List ℚ) (i : ℕ) (d : ℚ) (hv : ∀ x ∈ v, 0 ≤ x)
    (hd : 0 ≤ d) : ∀ x ∈ bump v i d, 0 ≤ x := by
  intro x hx
  rcases List.mem_or_eq_of_mem_set hx with h | h
  · exact hv x h
  · subst h
    have := getD_nonneg v i hv
    linarith

theorem foldl_bump_nonneg {α : Type} (l : List α) (f : α → ℕ) (g : α → ℚ)
    (hg : ∀ x ∈ l, 0 ≤ g x) (v : List ℚ) (hv : ∀ x ∈ v, 0 ≤ x) :
    ∀ x ∈ l.foldl (fun v x => bump v (f x) (g x)) v, 0 ≤ x := by
  induction l generalizing v with
  | nil => exact hv
  | cons x t ih =>
    rw [List.foldl_cons]
    exact ih (fun y hy => hg y (by simp [hy]))
      _ (bump_nonneg _ _ _ hv (hg x (by simp)))

theorem sum_set_getD (v : List ℚ) (i : ℕ) (d : ℚ) (hi : i < v.length) :
    (v.set i (v.getD i 0 + d)).sum = v.sum + d := by
  induction v generalizing i with
  | nil => simp at hi
  | cons a t ih =>
    cases i with
    | zero => simp [List.getD_cons_zero]; ring
    | succ n =>
      simp only [List.set_cons_succ, List.sum_cons, List.getD_cons_succ]
      rw [ih n (by simpa using hi)]
      ring

theorem bump_sum (v : List ℚ) (i : ℕ) (d : ℚ) (hi : i < v.length) :
    (bump v i d).sum = v.sum + d :=
  sum_set_getD v i d hi

theorem foldl_bump_sum_ge {α : Type} (l : List α) (f : α → ℕ) (g : α → ℚ)
    (hg : ∀ x ∈ l, 0 ≤ g x) (hf : ∀ x ∈ l, f x < 256) (v : List ℚ)
    (hlen : v.length = 256) :
    v.sum ≤ (l.foldl (fun v x => bump v (f x) (g x)) v).sum := by
  induction l generalizing v with
  | nil => exact le_refl _
  | cons x t ih =>
    rw [List.foldl_cons]
    have h1 : (bump v (f x) (g x)).sum = v.sum + g x :=
      bump_sum v _ _ (by rw [hlen]; exact hf x (by simp))
    have h2 := ih (fun y hy => hg y (by simp [hy]))
      (fun y hy => hf y (by simp [hy])) (bump v (f x) (g x))
      (by rw [bump_length, hlen])
    have h3 := hg x (by simp)
    linarith

theorem foldl_bump_sum_gt {α : Type} (x : α) (t : List α) (f : α → ℕ)
    (g : α → ℚ) (hgx : 0 < g x) (hg : ∀ y ∈ t, 0 ≤ g y) (hfx : f x < 256)
    (hf : ∀ y ∈ t, f y < 256) (v : List ℚ) (hlen : v.length = 256) :
    v.sum < ((x :: t).foldl (fun v y => bump v (f y) (g y)) v).sum := by
  rw [List.foldl_cons]
  have h1 : (bump v (f x) (g x)).sum = v.sum + g x :=
    bump_sum v _ _ (by rw [hlen]; exact hfx)
  have h2 := foldl_bump_sum_ge t f g hg hf (bump v (f x) (g x))
    (by rw [bump_length, hlen])
  linarith

theorem sum_nonpos_list (l : List ℚ) (h : ∀ x ∈ l, x ≤ 0) : l.sum ≤ 0 := by
  induction l with
  | nil => simp
  | cons a t ih =>
    have h1 := h a (by simp)
    have h2 := ih fun x hx => h x (by simp [hx])
    simp only [List.sum_cons]
    linarith

theorem sumSq_pos_of_sum_pos (v : List ℚ) (_hv : ∀ x ∈ v, 0 ≤ x)
    (hs : 0 < v.sum) : 0 < sumSq v := by
  have hex : ∃ x ∈ v, 0 < x := by
    by_contra hno
    push_neg at hno
    have hle : v.sum ≤ 0 := sum_nonpos_list v hno
    linarith
  obtain ⟨x, hx, hxp⟩ := hex
  have hmem : x * x ∈ v.map fun y => y * y := List.mem_map_of_mem _ hx
  have hle : x * x ≤ (v.map fun y => y * y).sum :=
    List.single_le_sum (fun y hy => by
      obtain ⟨z, _, hz⟩ := List.mem_map.mp hy
      rw [← hz]; exact mul_self_nonneg z) _ hmem
  have : 0 < x * x := mul_pos hxp hxp
  unfold sumSq
  linarith

theorem sumSqR_div (v : List ℚ) (n : ℝ) :
    sumSqR (v.map fun x : ℚ => (x : ℝ) / n) = ((sumSq v : ℚ) : ℝ) / (n * n) := by
  induction v with
  | nil => simp [sumSqR, sumSq]
  | cons a t ih =>
    simp only [List.map_cons, sumSqR, List.sum_cons, sumSq] at *
    rw [ih]
    push_cast
    rw [div_mul_div_comm, add_div]

theorem fallbackRaw_length (text : List Char) :
    (fallbackRaw text).length = 256 := by
  have h1 : ∀ (l : List (ℕ × Char)) (v : List ℚ),
      (l.foldl (fun v ic => bump v ((ic.2.toNat + ic.1) % 256)
        ((((ic.2.toNat % 31 : ℕ) : ℚ) + 1) / 32)) v).length = v.length :=
    fun l v => foldl_bump_length l _ _ v
  have h2 : ∀ (hs : List ℕ) (v : List ℚ),
      (hs.foldl (fun v h => bump v (h % 256) 1) v).length = v.length :=
    fun hs v => foldl_bump_length hs _ _ v
  unfold fallbackRaw charFeatures wordFeatures
  rw [h1, h2, List.length_replicate]

theorem fallbackRaw_nonneg (text : List Char) :
    ∀ x ∈ fallbackRaw text, 0 ≤ x := by
  unfold fallbackRaw charFeatures wordFeatures
  refine foldl_bump_nonneg _ _ _ (fun y _ => by positivity) _ ?_
  refine foldl_bump_nonneg _ _ _ (fun y _ => by norm_num) _ ?_
  intro x hx
  rw [List.eq_of_mem_replicate hx]

theorem fallbackRaw_sumSq_pos (text : List Char) (ht : text ≠ []) :
    0 < sumSq (fallbackRaw text) := by
  have hlimne : jsSub (jsLower text) 5000 ≠ [] := by
    intro h
    rcases List.take_eq_nil_iff.mp h with h5 | h5
    · norm_num at h5
    · exact ht (by simpa [jsLower] using h5)
  apply sumSq_pos_of_sum_pos _ (fallbackRaw_nonneg text)
  simp only [fallbackRaw, charFeatures]
  rcases hx : jsSub (jsLower text) 5000 with _ | ⟨c, rest⟩
  · exact absurd hx hlimne
  set wv := wordFeatures (List.replicate 256 0)
    (dedupFirst (((splitRuns jsIsWs (c :: rest)).filter
      fun w => w.length > 2).map wordHash)) with hw
  have hwlen : wv.length = 256 := by
    have h2 : ∀ (hs : List ℕ) (v : List ℚ),
        (hs.foldl (fun v h => bump v (h % 256) 1) v).length = v.length :=
      fun hs v => foldl_bump_length hs _ _ v
    rw [hw]
    unfold wordFeatures
    rw [h2, List.length_replicate]
  have hwn : ∀ x ∈ wv, 0 ≤ x := by
    rw [hw]
    unfold wordFeatures
    refine foldl_bump_nonneg _ _ _ (fun y _ => by norm_num) _ ?_
    intro x hxm
    rw [List.eq_of_mem_replicate hxm]
  have hsum0 : 0 ≤ wv.sum := List.sum_nonneg hwn
  rw [List.enum_cons]
  have hlt := foldl_bump_sum_gt ((0 : ℕ), c)
    (List.enumFrom 1 rest)
    (fun ic => (ic.2.toNat + ic.1) % 256)
    (fun ic => ((((ic.2.toNat % 31 : ℕ) : ℚ) + 1) / 32))
    (by positivity) (fun y _ => by positivity)
    (Nat.mod_lt _ (by norm_num)) (fun y _ => Nat.mod_lt _ (by norm_num))
    wv hwlen
  calc (0 : ℚ) ≤ wv.sum := hsum0
    _ < _ := hlt

set_option maxRecDepth 4000 in
/-- **C2 counterexample.** On the empty text the fallback embedding is the
zero vector (the `|| 1` guard divides by 1), so its Euclidean norm is 0, not
within `1e-6` of 1. -/
theorem embed_empty_counterexample :
    (generateEmbedding (str "")).length = 256 ∧
    ¬ |Real.sqrt (sumSqR (generateEmbedding (str ""))) - 1| ≤ 1 / 1000000 := by
  have hraw : fallbackRaw (str "") = List.replicate 256 0 := by decide
  have hzero : generateEmbedding (str "") = List.replicate 256 (0 : ℝ) := by
    simp only [generateEmbedding, hraw]
    norm_num [sumSq, List.map_replicate, List.sum_replicate]
  constructor
  · rw [hzero, List.length_replicate]
  · rw [hzero]
    have : sumSqR (List.replicate 256 (0 : ℝ)) = 0 := by
      norm_num [sumSqR, List.map_replicate, List.sum_replicate]
    rw [this, Real.sqrt_zero]
    norm_num

/-- **C2 (amended).** The fallback embedding always has exactly 256
components, is deterministic (it is a function), and for every *non-empty*
text its Euclidean norm is exactly 1; the empty text is the lone exception
(see the counterexample). -/
theorem embed_fallback_spec (text : List Char) :
    (generateEmbedding text).length = 256 ∧
    (text ≠ [] → sumSqR (generateEmbedding text) = 1) := by
  constructor
  · simp only [generateEmbedding, List.length_map]
    exact fallbackRaw_length text
  · intro ht
    have hpos := fallbackRaw_sumSq_pos text ht
    have hcast : (0 : ℝ) < ((sumSq (fallbackRaw text) : ℚ) : ℝ) := by
      exact_mod_cast hpos
    have hsne : Real.sqrt ((sumSq (fallbackRaw text) : ℚ) : ℝ) ≠ 0 :=
      (Real.sqrt_pos.mpr hcast).ne'
    simp only [generateEmbedding, if_neg hsne]
    rw [sumSqR_div, Real.mul_self_sqrt hcast.le]
    exact div_self hcast.ne'

/-- Witness for C2's amended theorem at the one-character text `"a"`. -/
theorem embed_fallback_spec_witness :
    (generateEmbedding (str "a")).length = 256 ∧
    sumSqR (generateEmbedding (str "a")) = 1 :=
  ⟨(embed_fallback_spec (str "a")).1,
   (embed_fallback_spec (str "a")).2 (by decide)⟩

theorem stage1Entry_chunk (queryLower : List Char) (docs : List Document)
    (c : DocumentChunk) (r : ScoredChunk)
    (h : stage1Entry queryLower docs c = some r) : r.chunk = c := by
  simp only [stage1Entry] at h
  split at h
  · split at h
    · injection h with h2
      rw [← h2]
    · exact Option.noConfusion h
  · split at h
    · injection h with h2
      rw [← h2]
    · exact Option.noConfusion h

theorem stage1Entry_score (queryLower : List Char) (docs : List Document)
    (c : DocumentChunk) (r : ScoredChunk)
    (h : stage1Entry queryLower docs c = some r) : 1 ≤ r.score := by
  simp only [stage1Entry] at h
  split at h
  · split at h
    · injection h with h2
      rw [← h2]
      show 1 ≤ matchScoreOf queryLower (jsLower c.text) + 2
      omega
    · exact Option.noConfusion h
  · split at h
    · next hcond =>
      injection h with h2
      rw [← h2]
      show 1 ≤ matchScoreOf queryLower (jsLower c.text)
      omega
    · exact Option.noConfusion h

/-- **C4.** Stage-1 candidate-set membership: a scored entry appears exactly
when its chunk is in the corpus and `stage1Entry` accepts it, and
`stage1Entry` is the claim's rule — on definition-style queries a chunk
enters iff its raw score is positive and it contains a definition marker,
scored raw + 2; otherwise iff the raw score is positive, unboosted. -/
theorem stage1_candidate_spec (query : List Char)
    (allChunks : List DocumentChunk) (allDocuments : List Document)
    (r : ScoredChunk) :
    (r ∈ textSearchResults query allChunks allDocuments ↔
      r.chunk ∈ allChunks ∧
        stage1Entry (jsLower query) allDocuments r.chunk = some r) ∧
    (∀ chunk : DocumentChunk, isDefStyle (jsLower query) = true →
      stage1Entry (jsLower query) allDocuments chunk =
        if 0 < matchScoreOf (jsLower query) (jsLower chunk.text) ∧
            (defMarkers.any fun w => containsL (jsLower chunk.text) w) = true
        then some ⟨chunk,
          matchScoreOf (jsLower query) (jsLower chunk.text) + 2,
          docNameOf allDocuments chunk.documentId⟩
        else none) ∧
    (∀ chunk : DocumentChunk, isDefStyle (jsLower query) = false →
      stage1Entry (jsLower query) allDocuments chunk =
        if 0 < matchScoreOf (jsLower query) (jsLower chunk.text)
        then some ⟨chunk, matchScoreOf (jsLower query) (jsLower chunk.text),
          docNameOf allDocuments chunk.documentId⟩
        else none) := by
  refine ⟨⟨?_, ?_⟩, ?_, ?_⟩
  · intro hm
    obtain ⟨a, ha, hae⟩ := List.mem_filterMap.mp hm
    have hc := stage1Entry_chunk _ _ _ _ hae
    rw [← hc] at ha hae
    exact ⟨ha, hae⟩
  · rintro ⟨hm, he⟩
    exact List.mem_filterMap.mpr ⟨r.chunk, hm, he⟩
  · intro chunk hdef
    simp only [stage1Entry, hdef, if_true]
    refine if_congr ?_ rfl rfl
    simp [Bool.and_eq_true, decide_eq_true_eq]
  · intro chunk hdef
    simp only [stage1Entry, hdef, Bool.false_eq_true, if_false]

/-- Witness for C4: a definition-style query whose single matching token and
marker admit the chunk with a +2 boost. -/
theorem stage1_candidate_spec_witness :
    stage1Entry (jsLower (str "what is alpha")) []
        ⟨str "c", str "d", 0, str "alpha is here", none⟩ =
      some ⟨⟨str "c", str "d", 0, str "alpha is here", none⟩, 3,
        str "Unknown Document"⟩ := by
  rw [(stage1_candidate_spec (str "what is alpha") [] []
    ⟨⟨str "c", str "d", 0, str "alpha is here", none⟩, 0, []⟩).2.1
    ⟨str "c", str "d", 0, str "alpha is here", none⟩ (by decide)]
  rw [if_pos (show _ ∧ _ from ⟨by decide, by decide⟩)]
  decide

theorem vector_entry_prop (queryEmbedding : List ℚ) (topK : ℕ)
    (threshold : ℝ) (allChunks : List DocumentChunk)
    (allDocuments : List Document) (r : SimilarityResult)
    (hr : r ∈ searchSimilarChunks queryEmbedding topK threshold allChunks
      allDocuments) :
    r.chunk ∈ allChunks ∧ threshold ≤ r.similarity ∧
      ∃ e, r.chunk.embedding = some e ∧
        cosineSimilarity queryEmbedding e = .ok r.similarity := by
  simp only [searchSimilarChunks] at hr
  have hr2 := List.mem_mergeSort.mp (List.take_subset _ _ hr)
  obtain ⟨chunk, hc, he⟩ := List.mem_filterMap.mp hr2
  split at he
  · exact Option.noConfusion he
  · rename_i e hemb
    split at he
    · exact Option.noConfusion he
    · rename_i sim hcos
      split at he
      · rename_i hth
        injection he with h2
        rw [← h2]
        exact ⟨hc, hth, e, hemb, hcos⟩
      · exact Option.noConfusion he

theorem mergeSort_sim_sorted (l : List SimilarityResult) :
    ((l.mergeSort fun a b => decide (b.similarity ≤ a.similarity)).map
      fun r => r.similarity).Sorted (· ≥ ·) := by
  have hp := @List.sorted_mergeSort SimilarityResult
    (fun a b : SimilarityResult => decide (b.similarity ≤ a.similarity))
    (fun a b c hab hbc => by
      simp only [decide_eq_true_eq] at *
      linarith)
    (fun a b => by
      simp only [Bool.or_eq_true, decide_eq_true_eq]
      exact le_total b.similarity a.similarity)
    l
  exact List.Pairwise.map _
    (fun a b h => by simpa using of_decide_eq_true h) hp

/-- **C3.** Stage-2 vector search happens exactly when stage 1 produced fewer
than 3 results; when it does its results are appended to the stage-1 list
as-is (no merging/deduplication), and those results are chunks with a stored
embedding whose cosine similarity is at least the 0.1 threshold, sorted
descending, at most 10 of them. -/
theorem hybrid_search_spec (query : List Char) (queryEmbedding : List ℚ)
    (allChunks : List DocumentChunk) (allDocuments : List Document) :
    (((stage1Results query allChunks allDocuments).length < 3 →
      similarChunksCombined query queryEmbedding allChunks allDocuments =
        stage1Results query allChunks allDocuments ++
          searchSimilarChunks queryEmbedding 10 (1 / 10) allChunks
            allDocuments) ∧
      (3 ≤ (stage1Results query allChunks allDocuments).length →
        similarChunksCombined query queryEmbedding allChunks allDocuments =
          stage1Results query allChunks allDocuments)) ∧
    (searchSimilarChunks queryEmbedding 10 (1 / 10) allChunks
      allDocuments).length ≤ 10 ∧
    ((searchSimilarChunks queryEmbedding 10 (1 / 10) allChunks
      allDocuments).map fun r => r.similarity).Sorted (· ≥ ·) ∧
    ∀ r ∈ searchSimilarChunks queryEmbedding 10 (1 / 10) allChunks
        allDocuments,
      r.chunk ∈ allChunks ∧ (1 : ℝ) / 10 ≤ r.similarity ∧
        ∃ e, r.chunk.embedding = some e ∧
          cosineSimilarity queryEmbedding e = .ok r.similarity := by
  refine ⟨⟨?_, ?_⟩, ?_, ?_, ?_⟩
  · intro h
    simp only [similarChunksCombined, if_pos h]
  · intro h
    simp only [similarChunksCombined, if_neg (Nat.not_lt.mpr h)]
  · simp only [searchSimilarChunks]
    exact List.length_take_le _ _
  · simp only [searchSimilarChunks, List.map_take]
    exact List.Pairwise.sublist (List.take_sublist _ _)
      (mergeSort_sim_sorted _)
  · exact fun r hr => vector_entry_prop _ _ _ _ _ r hr

/-- Witness for C3 on the empty corpus: stage 1 is empty, so stage 2 is
invoked and appended. -/
theorem hybrid_search_spec_witness :
    similarChunksCombined (str "zz") [] [] [] =
      stage1Results (str "zz") [] [] ++
        searchSimilarChunks [] 10 (1 / 10) [] [] :=
  (hybrid_search_spec (str "zz") [] [] []).1.1
    (by simp [stage1Results, textSearchResults])

theorem stage1_sim_ge (query : List Char) (allChunks : List DocumentChunk)
    (allDocuments : List Document) (r : SimilarityResult)
    (hr : r ∈ stage1Results query allChunks allDocuments) :
    (1 : ℝ) / 10 ≤ r.similarity := by
  simp only [stage1Results] at hr
  obtain ⟨s, hs, hmap⟩ := List.mem_map.mp hr
  have hs2 := List.mem_mergeSort.mp (List.take_subset _ _ hs)
  obtain ⟨a, _, hae⟩ := List.mem_filterMap.mp hs2
  have hscore := stage1Entry_score _ _ _ _ hae
  rw [← hmap]
  show (1 : ℝ) / 10 ≤ (s.score : ℝ) / 10
  have hc : (1 : ℝ) ≤ (s.score : ℝ) := by exact_mod_cast hscore
  linarith

/-- **C5 (amended).** Every source in a query response carries the
two-decimal rounding of its result's relevance score — a value that is always
at least 0.1 but (see the counterexample) may exceed 1 — and a relevance
label derived from the *un-rounded* score by the bands `>0.9` Very High,
`>0.8` High, `>0.7` Medium, else Low. -/
theorem sources_shape (query : List Char) (queryEmbedding : List ℚ)
    (allChunks : List DocumentChunk) (allDocuments : List Document)
    (src : SourceResult)
    (hmem : src ∈ querySources query queryEmbedding allChunks allDocuments) :
    ∃ raw : ℝ, (1 : ℝ) / 10 ≤ raw ∧ src.similarity = jsRound2 raw ∧
      src.relevance = relevanceLabel raw := by
  simp only [querySources] at hmem
  obtain ⟨r, hr, hsrc⟩ := List.mem_map.mp hmem
  refine ⟨r.similarity, ?_, by rw [← hsrc], by rw [← hsrc]⟩
  have hr2 : r ∈ similarChunksCombined query queryEmbedding allChunks
      allDocuments := List.mem_mergeSort.mp hr
  simp only [similarChunksCombined] at hr2
  by_cases hc : (stage1Results query allChunks allDocuments).length < 3
  · rw [if_pos hc] at hr2
    rcases List.mem_append.mp hr2 with h1 | h2
    · exact stage1_sim_ge _ _ _ _ h1
    · exact (vector_entry_prop _ _ _ _ _ _ h2).2.1
  · rw [if_neg hc] at hr2
    exact stage1_sim_ge _ _ _ _ hr2

theorem searchSimilar_none (queryEmbedding : List ℚ) (topK : ℕ)
    (threshold : ℝ) (allChunks : List DocumentChunk)
    (allDocuments : List Document) (h : ∀ c ∈ allChunks, c.embedding = none) :
    searchSimilarChunks queryEmbedding topK threshold allChunks
      allDocuments = [] := by
  have hf : (allChunks.filterMap fun chunk =>
      match chunk.embedding with
      | none => none
      | some chunkEmbedding =>
        match cosineSimilarity queryEmbedding chunkEmbedding with
        | .error _ => none
        | .ok similarity =>
          if threshold ≤ similarity then
            some (⟨chunk, similarity,
              docNameOf allDocuments chunk.documentId⟩ : SimilarityResult)
          else none) = [] := by
    rw [List.filterMap_eq_nil_iff]
    intro c hc
    rw [h c hc]
  simp only [searchSimilarChunks, hf, List.mergeSort_nil, List.take_nil]

theorem sample_sources_eval :
    querySources bigQuery [] [bigChunk] [bigDoc] =
      [⟨str "F.pdf", 0, bigChunk.text, jsRound2 (((11 : ℕ) : ℝ) / 10),
        relevanceLabel (((11 : ℕ) : ℝ) / 10)⟩] := by
  have h1 : textSearchResults bigQuery [bigChunk] [bigDoc] =
      [⟨bigChunk, 11, str "F.pdf"⟩] := by decide
  have h2 : stage1Results bigQuery [bigChunk] [bigDoc] =
      [⟨bigChunk, ((11 : ℕ) : ℝ) / 10, str "F.pdf"⟩] := by
    simp only [stage1Results, h1, List.mergeSort_singleton]
    rw [List.take_of_length_le (by norm_num)]
    rfl
  have h3 : searchSimilarChunks [] 10 (1 / 10) [bigChunk] [bigDoc] = [] :=
    searchSimilar_none _ _ _ _ _ (by intro c hc; simp at hc; rw [hc]; rfl)
  have h4 : similarChunksCombined bigQuery [] [bigChunk] [bigDoc] =
      [⟨bigChunk, ((11 : ℕ) : ℝ) / 10, str "F.pdf"⟩] := by
    simp only [similarChunksCombined, h2, h3]
    norm_num
  have h5 : sortedChunks bigQuery [] [bigChunk] [bigDoc] =
      [⟨bigChunk, ((11 : ℕ) : ℝ) / 10, str "F.pdf"⟩] := by
    simp only [sortedChunks, h4, List.mergeSort_singleton]
  simp only [querySources, h5, List.map_cons, List.map_nil]
  rfl

theorem jsRound2_eleven : jsRound2 (((11 : ℕ) : ℝ) / 10) = 11 / 10 := by
  unfold jsRound2
  have harg : (((11 : ℕ) : ℝ) / 10) * 100 + 1 / 2 = 221 / 2 := by
    push_cast
    ring
  rw [harg]
  have hf : ⌊(221 / 2 : ℝ)⌋ = (110 : ℤ) := by
    rw [Int.floor_eq_iff]
    constructor <;> norm_num
  rw [hf]
  norm_num

/-- **C5 counterexample.** A definition-style query with nine matching tokens
gives a stage-1 score of 11, so the response's source carries similarity
`1.1 > 1` — the claimed `[0,1]` range is violated. -/
theorem sources_above_one_counterexample :
    ∃ src ∈ querySources bigQuery [] [bigChunk] [bigDoc],
      1 < src.similarity := by
  rw [sample_sources_eval]
  refine ⟨_, List.mem_singleton_self _, ?_⟩
  show (1 : ℝ) < jsRound2 (((11 : ℕ) : ℝ) / 10)
  rw [jsRound2_eleven]
  norm_num

/-- Witness for C5's amended theorem at the concrete one-chunk corpus. -/
theorem sources_shape_witness :
    ∃ raw : ℝ, (1 : ℝ) / 10 ≤ raw ∧
      jsRound2 (((11 : ℕ) : ℝ) / 10) = jsRound2 raw ∧
      relevanceLabel (((11 : ℕ) : ℝ) / 10) = relevanceLabel raw :=
  sources_shape bigQuery [] [bigChunk] [bigDoc]
    ⟨str "F.pdf", 0, bigChunk.text, jsRound2 (((11 : ℕ) : ℝ) / 10),
      relevanceLabel (((11 : ℕ) : ℝ) / 10)⟩
    (by rw [sample_sources_eval]; exact List.mem_singleton_self _)

/-! ## Trim lemmas (for the chunker claims) -/

theorem mem_dropWhile_of_not (p : Char → Bool) (l : List Char) (x : Char)
    (hx : x ∈ l) (hp : p x = false) : x ∈ l.dropWhile p := by
  induction l with
  | nil => simp at hx
  | cons a t ih =>
    rw [List.dropWhile_cons]
    by_cases ha : p a = true
    · rw [if_pos ha]
      rcases List.mem_cons.mp hx with h | h
      · rw [h] at hp; rw [hp] at ha; exact Bool.noConfusion ha
      · exact ih h
    · rw [if_neg ha]
      exact hx

theorem mem_jsTrim_of_not_ws (s : List Char) (x : Char) (hx : x ∈ s)
    (hp : jsIsWs x = false) : x ∈ jsTrim s := by
  unfold jsTrim
  have h1 : x ∈ s.dropWhile jsIsWs := mem_dropWhile_of_not _ _ _ hx hp
  have h2 : x ∈ (s.dropWhile jsIsWs).reverse := List.mem_reverse.mpr h1
  have h3 := mem_dropWhile_of_not _ _ _ h2 hp
  exact List.mem_reverse.mpr h3

theorem jsTrim_subset (s : List Char) : jsTrim s ⊆ s := by
  intro x hx
  unfold jsTrim at hx
  have h1 := List.mem_reverse.mp hx
  have h2 := (List.dropWhile_sublist _).subset h1
  have h3 := List.mem_reverse.mp h2
  exact (List.dropWhile_sublist _).subset h3

theorem jsTrim_eq_nil_all_ws (s : List Char) (h : jsTrim s = []) :
    ∀ x ∈ s, jsIsWs x = true := by
  intro x hx
  by_contra hws
  have := mem_jsTrim_of_not_ws s x hx (Bool.eq_false_iff.mpr hws)
  rw [h] at this
  simp at this

theorem jsTrim_length_le (s : List Char) : (jsTrim s).length ≤ s.length := by
  unfold jsTrim
  rw [List.length_reverse]
  calc ((s.dropWhile jsIsWs).reverse.dropWhile jsIsWs).length
      ≤ (s.dropWhile jsIsWs).reverse.length :=
        (List.dropWhile_sublist _).length_le
    _ = (s.dropWhile jsIsWs).length := List.length_reverse _
    _ ≤ s.length := (List.dropWhile_sublist _).length_le

theorem head?_dropWhile_not (p : Char → Bool) (l : List Char) (a : Char)
    (h : (l.dropWhile p).head? = some a) : p a = false := by
  induction l with
  | nil => simp at h
  | cons c t ih =>
    rw [List.dropWhile_cons] at h
    by_cases hc : p c = true
    · rw [if_pos hc] at h
      exact ih h
    · rw [if_neg hc] at h
      simp only [List.head?_cons, Option.some.injEq] at h
      rw [← h]
      exact Bool.eq_false_iff.mpr hc

theorem dropWhile_dropWhile (p : Char → Bool) (l : List Char) :
    (l.dropWhile p).dropWhile p = l.dropWhile p := by
  induction l with
  | nil => rfl
  | cons a t ih =>
    rw [List.dropWhile_cons]
    by_cases ha : p a = true
    · rw [if_pos ha]
      exact ih
    · rw [if_neg ha, List.dropWhile_cons, if_neg ha]

theorem dropWhile_eq_self_of_head? (p : Char → Bool) (l : List Char)
    (h : ∀ a, l.head? = some a → p a = false) : l.dropWhile p = l := by
  cases l with
  | nil => rfl
  | cons a t =>
    rw [List.dropWhile_cons, if_neg]
    rw [h a rfl]
    simp

/-- The head of a non-empty trimmed string is not whitespace. -/
theorem jsTrim_head?_not_ws (s : List Char) (a : Char)
    (h : (jsTrim s).head? = some a) : jsIsWs a = false := by
  unfold jsTrim at h
  rw [List.head?_reverse] at h
  have hne : (s.dropWhile jsIsWs).reverse.dropWhile jsIsWs ≠ [] := by
    intro hnil
    rw [hnil] at h
    simp at h
  obtain ⟨pre, hpre⟩ :=
    (List.dropWhile_suffix jsIsWs :
      List.dropWhile jsIsWs (s.dropWhile jsIsWs).reverse <:+
        (s.dropWhile jsIsWs).reverse)
  have h2 : (s.dropWhile jsIsWs).reverse.getLast? = some a := by
    rw [← hpre, List.getLast?_append_of_ne_nil _ hne]
    exact h
  rw [List.getLast?_reverse] at h2
  exact head?_dropWhile_not _ _ _ h2

/-- The last character of a non-empty trimmed string is not whitespace. -/
theorem jsTrim_getLast?_not_ws (s : List Char) (a : Char)
    (h : (jsTrim s).getLast? = some a) : jsIsWs a = false := by
  unfold jsTrim at h
  rw [List.getLast?_reverse] at h
  exact head?_dropWhile_not _ _ _ h

theorem jsTrim_idem (s : List Char) : jsTrim (jsTrim s) = jsTrim s := by
  rcases hcase : jsTrim s with _ | ⟨b, ts⟩
  · rfl
  · have hhead : jsIsWs b = false :=
      jsTrim_head?_not_ws s b (by rw [hcase]; rfl)
    show jsTrim (b :: ts) = b :: ts
    unfold jsTrim
    rw [List.dropWhile_cons, if_neg (by rw [hhead]; simp)]
    rw [dropWhile_eq_self_of_head?, List.reverse_reverse]
    intro a ha
    rw [List.head?_reverse] at ha
    exact jsTrim_getLast?_not_ws s a (by rw [hcase]; exact ha)

theorem exists_not_ws_of_jsTrim_ne_nil (t : List Char) (h : jsTrim t ≠ []) :
    ∃ x ∈ t, jsIsWs x = false := by
  rcases hcase : jsTrim t with _ | ⟨b, ts⟩
  · exact absurd hcase h
  · exact ⟨b, jsTrim_subset t (by rw [hcase]; simp),
      jsTrim_head?_not_ws t b (by rw [hcase]; rfl)⟩

/-! ## Slider (splitSectionIntoChunks) lemmas -/

theorem jsSlice_length (s : List Char) (a b : ℕ) :
    (jsSlice s a b).length = min b s.length - a := by
  simp [jsSlice]

theorem drop_eq_slice_append (s : List Char) (a b : ℕ) (hab : a ≤ b)
    (hb : b ≤ s.length) : s.drop a = jsSlice s a b ++ s.drop b := by
  unfold jsSlice
  conv_lhs => rw [← List.take_append_drop b s]
  rw [List.drop_append_eq_append_drop]
  have : a - (s.take b).length = 0 := by
    rw [List.length_take]
    omega
  rw [this, List.drop_zero]

theorem lastIndexOfC_le (chunk : List Char) (c : Char) :
    lastIndexOfC chunk c ≤ (chunk.length : ℤ) - 1 := by
  unfold lastIndexOfC
  split
  · omega
  · omega

theorem breakPointOf_le (chunk : List Char) :
    breakPointOf chunk ≤ (chunk.length : ℤ) - 1 := by
  unfold breakPointOf
  have h1 := lastIndexOfC_le chunk '.'
  have h2 := lastIndexOfC_le chunk '\n'
  have h3 := lastIndexOfC_le chunk ','
  omega

theorem sliderOK_branch (s : List Char) (base start cut start' : ℕ)
    (hstart : start < s.length) (hcut1 : start < cut) (hcut2 : cut ≤ s.length)
    (hs' : start < start') (hs'cut : start' ≤ cut)
    (IH : SliderOK s base start' (sliderPos s base start')) :
    SliderOK s base start
      (pushTrim (jsSlice s start cut) (base + start)
        (sliderPos s base start')) := by
  obtain ⟨ihsort, ihmem, ihne⟩ := IH
  unfold pushTrim
  by_cases hpush : (jsTrim (jsSlice s start cut)).length > 0
  · rw [if_pos hpush]
    refine ⟨?_, ?_, by simp⟩
    · rw [List.map_cons, List.sorted_cons]
      refine ⟨?_, ihsort⟩
      intro b hb
      obtain ⟨pr, hpr, hb2⟩ := List.mem_map.mp hb
      rw [← hb2]
      have := (ihmem pr hpr).1
      omega
    · intro pr hpr
      rcases List.mem_cons.mp hpr with h | h
      · subst h
        refine ⟨le_refl _, by show base + start < base + s.length; omega,
          jsTrim_idem _, ?_⟩
        show jsTrim (jsSlice s start cut) ≠ []
        intro hnil
        rw [hnil] at hpush
        simp at hpush
      · have := ihmem pr h
        exact ⟨by omega, this.2.1, this.2.2.1, this.2.2.2⟩
  · rw [if_neg hpush]
    refine ⟨ihsort, ?_, ?_⟩
    · intro pr hpr
      have := ihmem pr hpr
      exact ⟨by omega, this.2.1, this.2.2.1, this.2.2.2⟩
    · rintro ⟨c, hc, hcws⟩
      rw [drop_eq_slice_append s start cut hcut1.le hcut2] at hc
      rcases List.mem_append.mp hc with h | h
      · have hall := jsTrim_eq_nil_all_ws (jsSlice s start cut)
          (by simpa using hpush) c h
        rw [hall] at hcws
        exact Bool.noConfusion hcws
      · apply ihne
        refine ⟨c, ?_, hcws⟩
        have : s.drop cut = (s.drop start').drop (cut - start') := by
          rw [List.drop_drop]
          congr 1
          omega
        rw [this] at h
        exact List.drop_subset _ _ h

theorem sliderPos_ok (s : List Char) (base : ℕ) :
    ∀ n start, s.length - start ≤ n →
      SliderOK s base start (sliderPos s base start) := by
  intro n
  induction n with
  | zero =>
    intro start h
    rw [sliderPos, dif_neg (by omega)]
    refine ⟨by simp, by simp, ?_⟩
    rintro ⟨c, hc, _⟩
    rw [List.drop_eq_nil_iff.mpr (by omega)] at hc
    simp at hc
  | succ n ih =>
    intro start h
    by_cases hlt : start < s.length
    · rw [sliderPos, dif_pos hlt]
      by_cases h2 : min (start + 1000) s.length < s.length
      · rw [dif_pos h2]
        have he0 : min (start + 1000) s.length = start + 1000 := by omega
        by_cases h3 : breakPointOf
            (jsSlice s start (min (start + 1000) s.length)) >
            (start : ℤ) + 600
        · rw [dif_pos h3]
          have hbp := breakPointOf_le (jsSlice s start (min (start + 1000) s.length))
          rw [jsSlice_length] at hbp
          set bp := breakPointOf (jsSlice s start (min (start + 1000) s.length))
            with hbpdef
          have hbpnat : (bp.toNat : ℤ) = bp := Int.toNat_of_nonneg (by omega)
          apply sliderOK_branch s base start (bp.toNat + 1) (bp.toNat + 1 - 200)
            hlt (by omega) (by omega) (by omega) (by omega)
          exact ih (bp.toNat + 1 - 200) (by omega)
        · rw [dif_neg h3]
          apply sliderOK_branch s base start (min (start + 1000) s.length)
            (min (start + 1000) s.length - 200) hlt (by omega) (by omega)
            (by omega) (by omega)
          exact ih (min (start + 1000) s.length - 200) (by omega)
      · rw [dif_neg h2]
        have he0 : min (start + 1000) s.length = s.length := by omega
        apply sliderOK_branch s base start (min (start + 1000) s.length)
          (min (start + 1000) s.length) hlt (by omega) (by omega) (by omega)
          (by omega)
        apply ih
        omega
    · rw [sliderPos, dif_neg hlt]
      refine ⟨by simp, by simp, ?_⟩
      rintro ⟨c, hc, _⟩
      rw [List.drop_eq_nil_iff.mpr (by omega)] at hc
      simp at hc

theorem sliderPos_spec (s : List Char) (base start : ℕ) :
    SliderOK s base start (sliderPos s base start) :=
  sliderPos_ok s base s.length start (by omega)

/-! ## Regex-engine position bounds -/

theorem headEq_length (w s : List Char) (h : headEq w s = true) :
    w.length ≤ s.length := by
  induction w generalizing s with
  | nil => simp
  | cons a w ih =>
    cases s with
    | nil => simp [headEq] at h
    | cons b s =>
      simp only [headEq, Bool.and_eq_true] at h
      have := ih s h.2
      simpa using Nat.succ_le_succ this

theorem litTest_le (ci : Bool) (w s : List Char) (i : ℕ)
    (h : litTest ci w s i = true) (hi : i ≤ s.length) :
    i + w.length ≤ s.length := by
  unfold litTest at h
  have hlen : w.length ≤ (s.drop i).length := by
    cases ci with
    | false => simpa using headEq_length _ _ h
    | true =>
      have := headEq_length _ _ h
      simpa [jsLower] using this
  rw [List.length_drop] at hlen
  omega

theorem runLen_le (p : Char → Bool) (s : List Char) (i : ℕ) :
    runLen p s i ≤ s.length - i := by
  unfold runLen
  calc ((s.drop i).takeWhile p).length ≤ (s.drop i).length :=
        (List.takeWhile_sublist p).length_le
    _ = s.length - i := List.length_drop i s

theorem capsWF_empty (lo hi : ℕ) : CapsWF {} lo hi := by
  refine ⟨fun a ha => ?_, fun a b hab => ?_⟩
  · exact Option.noConfusion ha
  · exact Option.noConfusion hab

theorem capsWF_mono (cp : Caps) (lo hi hi' : ℕ) (h : CapsWF cp lo hi)
    (hle : hi ≤ hi') : CapsWF cp lo hi' := by
  obtain ⟨h1, h2⟩ := h
  refine ⟨fun a ha => ?_, fun a b hab => ?_⟩
  · have := h1 a ha
    omega
  · have := h2 a b hab
    exact ⟨this.1, this.2.1, by omega⟩

theorem matchFrom_bounds (fuel : ℕ) :
    ∀ (items : List RItem) (s : List Char) (i : ℕ) (cp : Caps) (lo e : ℕ)
      (cp' : Caps),
      matchFrom fuel items s i cp = some (e, cp') → i ≤ s.length →
      lo ≤ i → CapsWF cp lo i →
      i ≤ e ∧ e ≤ s.length ∧ CapsWF cp' lo e := by
  induction fuel with
  | zero =>
    intro items s i cp lo e cp' hm
    simp [matchFrom] at hm
  | succ fuel ih =>
    intro items s i cp lo e cp' hm hi hlo hcp
    cases items with
    | nil =>
      simp only [matchFrom, Option.some.injEq, Prod.mk.injEq] at hm
      obtain ⟨he, hcpe⟩ := hm
      subst he
      subst hcpe
      exact ⟨le_refl _, hi, hcp⟩
    | cons item rest =>
      cases item with
      | lit ci w =>
        simp only [matchFrom] at hm
        by_cases hl : litTest ci w s i = true
        · rw [if_pos hl] at hm
          have hlen := litTest_le ci w s i hl hi
          have := ih rest s (i + w.length) cp lo e cp' hm hlen (by omega)
            (capsWF_mono cp lo i (i + w.length) hcp (by omega))
          exact ⟨by omega, this.2.1, this.2.2⟩
        · rw [if_neg hl] at hm
          exact absurd hm (by simp)
      | cls p mn mx greedy =>
        simp only [matchFrom] at hm
        split at hm
        · obtain ⟨j, hj, hcase⟩ := List.exists_of_findSome?_eq_some hm
          rw [List.mem_range] at hj
          set hi0 := match mx with
            | none => runLen p s i
            | some m => min m (runLen p s i) with hhi0
          have hrl := runLen_le p s i
          have hhile : hi0 ≤ s.length - i := by
            rw [hhi0]
            cases mx with
            | none => exact hrl
            | some m => exact le_trans (min_le_right _ _) hrl
          set k := if greedy then hi0 - j else mn + j with hk
          have hkle : k ≤ hi0 := by
            rw [hk]
            split
            · omega
            · omega
          have := ih rest s (i + k) cp lo e cp' hcase (by omega) (by omega)
            (capsWF_mono cp lo i (i + k) hcp (by omega))
          exact ⟨by omega, this.2.1, this.2.2⟩
        · exact absurd hm (by simp)
      | altLit ci ws =>
        simp only [matchFrom] at hm
        obtain ⟨w, hw, hcase⟩ := List.exists_of_findSome?_eq_some hm
        by_cases hl : litTest ci w s i = true
        · rw [if_pos hl] at hcase
          have hlen := litTest_le ci w s i hl hi
          have := ih rest s (i + w.length) cp lo e cp' hcase hlen (by omega)
            (capsWF_mono cp lo i (i + w.length) hcp (by omega))
          exact ⟨by omega, this.2.1, this.2.2⟩
        · rw [if_neg hl] at hcase
          exact absurd hcase (by simp)
      | gOpen n =>
        simp only [matchFrom] at hm
        refine ih rest s i (cp.openG n i) lo e cp' hm hi hlo ?_
        unfold Caps.openG
        by_cases hn : n = 1
        · rw [if_pos hn]
          refine ⟨fun a ha => ?_, fun a b hab => ?_⟩
          · simp only [Option.some.injEq] at ha
            omega
          · exact hcp.2 a b hab
        · rw [if_neg hn]
          exact ⟨hcp.1, hcp.2⟩
      | gClose n =>
        simp only [matchFrom] at hm
        refine ih rest s i (cp.closeG n i) lo e cp' hm hi hlo ?_
        unfold Caps.closeG
        by_cases hn : n = 1
        · rw [if_pos hn]
          refine ⟨fun a ha => hcp.1 a ha, fun a b hab => ?_⟩
          simp only [Option.map_eq_some'] at hab
          obtain ⟨a0, ha0, heq⟩ := hab
          rw [Prod.mk.injEq] at heq
          obtain ⟨ha1, hb1⟩ := heq
          have := hcp.1 a0 ha0
          exact ⟨by omega, by omega, by omega⟩
        · rw [if_neg hn]
          exact ⟨hcp.1, hcp.2⟩

theorem matchPatsAt_bounds (pats : List (List RItem)) (s : List Char)
    (i j e : ℕ) (cp : Caps) (hm : matchPatsAt pats s i = some (j, e, cp))
    (hi : i ≤ s.length) :
    j = i ∧ i ≤ e ∧ e ≤ s.length ∧ CapsWF cp i e := by
  unfold matchPatsAt at hm
  obtain ⟨pat, hpat, hcase⟩ := List.exists_of_findSome?_eq_some hm
  rw [Option.map_eq_some'] at hcase
  obtain ⟨⟨e0, cp0⟩, hm0, heq⟩ := hcase
  have hb := matchFrom_bounds (pat.length + 1) pat s i {} i e0 cp0 hm0 hi
    (le_refl i) (capsWF_empty i i)
  rw [Prod.mk.injEq, Prod.mk.injEq] at heq
  obtain ⟨h1, h2a, h2b⟩ := heq
  subst h1
  subst h2a
  subst h2b
  exact ⟨rfl, hb.1, hb.2.1, hb.2.2⟩

theorem searchFrom_bounds (pats : List (List RItem)) (s : List Char)
    (start j e : ℕ) (cp : Caps)
    (hm : searchFrom pats s start = some (j, e, cp)) :
    start ≤ j ∧ j ≤ e ∧ e ≤ s.length ∧ CapsWF cp j e := by
  unfold searchFrom at hm
  obtain ⟨i, hi, hcase⟩ := List.exists_of_findSome?_eq_some hm
  rw [List.mem_range] at hi
  by_cases hs : start ≤ i
  · rw [if_pos hs] at hcase
    have hb := matchPatsAt_bounds pats s i j e cp hcase (by omega)
    obtain ⟨hji, hie, hel, hcw⟩ := hb
    subst hji
    exact ⟨by omega, hie, hel, hcw⟩
  · rw [if_neg hs] at hcase
    exact absurd hcase (by simp)

theorem globalGo_ok (pats : List (List RItem)) (s : List Char) :
    ∀ fuel i, MatchesOK s i (globalGo pats s i fuel) := by
  intro fuel
  induction fuel with
  | zero =>
    intro i
    rw [globalGo]
    trivial
  | succ fuel ih =>
    intro i
    rw [globalGo]
    cases hs : searchFrom pats s i with
    | none => trivial
    | some r =>
      obtain ⟨j, e, cp⟩ := r
      have hb := searchFrom_bounds pats s i j e cp hs
      exact ⟨hb.1, hb.2.1, hb.2.2.1, hb.2.2.2, ih (max e (j + 1))⟩

theorem globalMatches_ok (pats : List (List RItem)) (s : List Char) :
    MatchesOK s 0 (globalMatches pats s) :=
  globalGo_ok pats s (s.length + 2) 0

theorem matchesOK_mono (s : List Char) (i i' : ℕ)
    (l : List (ℕ × ℕ × Caps)) (h : MatchesOK s i l) (hle : i' ≤ i) :
    MatchesOK s i' l := by
  cases l with
  | nil => trivial
  | cons m rest =>
    obtain ⟨j, e, cp⟩ := m
    obtain ⟨h1, h2⟩ := h
    exact ⟨by omega, h2⟩

/-! ## jsSplitPos interval ordering -/

theorem jsSplitPosGo_spec (s : List Char) :
    ∀ (ms : List (ℕ × ℕ × Caps)) (pos : ℕ), MatchesOK s pos ms →
      pos ≤ s.length →
      IntervalSorted (jsSplitPosGo s pos ms) ∧
      ∀ pr ∈ jsSplitPosGo s pos ms, pos ≤ pr.2 ∧
        pr.2 + pr.1.length ≤ s.length := by
  intro ms
  induction ms with
  | nil =>
    intro pos hok hpos
    refine ⟨List.pairwise_singleton _ _, ?_⟩
    intro pr hpr
    rw [jsSplitPosGo] at hpr
    rcases List.mem_singleton.mp hpr with h
    subst h
    refine ⟨le_refl _, ?_⟩
    show pos + (jsSlice s pos s.length).length ≤ s.length
    rw [jsSlice_length]
    omega
  | cons m rest ih =>
    obtain ⟨j, e, cp⟩ := m
    intro pos hok hpos
    obtain ⟨h1, h2, h3, hcw, hrest⟩ := hok
    have hrest' : MatchesOK s e rest :=
      matchesOK_mono s (max e (j + 1)) e rest hrest (by omega)
    have IH := ih e hrest' h3
    have hheadlen : (jsSlice s pos j).length = j - pos := by
      rw [jsSlice_length]
      omega
    rw [jsSplitPosGo]
    cases hg : cp.g1 with
    | none =>
      simp only [hg, List.cons_append, List.nil_append]
      constructor
      · rw [IntervalSorted, List.pairwise_cons]
        refine ⟨?_, IH.1⟩
        intro b hb
        have hb2 := (IH.2 b hb).1
        show pos + (jsSlice s pos j).length ≤ b.2
        rw [hheadlen]
        omega
      · intro pr hpr
        rcases List.mem_cons.mp hpr with h | h
        · subst h
          refine ⟨le_refl _, ?_⟩
          show pos + (jsSlice s pos j).length ≤ s.length
          rw [hheadlen]
          omega
        · have := IH.2 pr h
          exact ⟨by omega, this.2⟩
    | some ab =>
      obtain ⟨a, b⟩ := ab
      have hab := hcw.2 a b hg
      have hcaplen : (jsSlice s a b).length = b - a := by
        rw [jsSlice_length]
        omega
      simp only [hg, List.cons_append, List.nil_append]
      constructor
      · rw [IntervalSorted, List.pairwise_cons, List.pairwise_cons]
        refine ⟨?_, ?_, IH.1⟩
        · intro y hy
          rcases List.mem_cons.mp hy with h | h
          · subst h
            show pos + (jsSlice s pos j).length ≤ a
            rw [hheadlen]
            omega
          · have := (IH.2 y h).1
            show pos + (jsSlice s pos j).length ≤ y.2
            rw [hheadlen]
            omega
        · intro y hy
          have := (IH.2 y hy).1
          show a + (jsSlice s a b).length ≤ y.2
          rw [hcaplen]
          omega
      · intro pr hpr
        rcases List.mem_cons.mp hpr with h | hpr2
        · subst h
          refine ⟨le_refl _, ?_⟩
          show pos + (jsSlice s pos j).length ≤ s.length
          rw [hheadlen]
          omega
        rcases List.mem_cons.mp hpr2 with h | h
        · subst h
          refine ⟨by omega, ?_⟩
          show a + (jsSlice s a b).length ≤ s.length
          rw [hcaplen]
          omega
        · have := IH.2 pr h
          exact ⟨by omega, this.2⟩

theorem jsSplitPos_spec (pats : List (List RItem)) (s : List Char) :
    IntervalSorted (jsSplitPos pats s) ∧
    ∀ pr ∈ jsSplitPos pats s, pr.2 + pr.1.length ≤ s.length := by
  have h := jsSplitPosGo_spec s (globalMatches pats s) 0
    (globalMatches_ok pats s) (Nat.zero_le _)
  exact ⟨h.1, fun pr hpr => (h.2 pr hpr).2⟩

/-! ## Q&A pairing lemmas -/

theorem jsTrim_has_not_ws (t : List Char) (h : jsTrim t ≠ []) :
    ∃ c ∈ jsTrim t, jsIsWs c = false := by
  cases hc : jsTrim t with
  | nil => exact absurd hc h
  | cons c rest =>
    refine ⟨c, List.mem_cons_self c rest, ?_⟩
    exact jsTrim_head?_not_ws t c (by rw [hc]; rfl)

theorem qaPairsPos_spec (l : List (List Char × ℕ)) :
    ∀ lb : ℕ, IntervalSorted l → (∀ x ∈ l, lb ≤ x.2) →
      ((qaPairsPos l).map Prod.snd).Sorted (· ≤ ·) ∧
      ∀ pr ∈ qaPairsPos l, lb ≤ pr.2 ∧ jsTrim pr.1 ≠ [] := by
  induction l using qaPairsPos.induct with
  | case1 =>
    intro lb _ _
    exact ⟨by simp [qaPairsPos], by simp [qaPairsPos]⟩
  | case2 x =>
    intro lb _ _
    exact ⟨by simp [qaPairsPos], by simp [qaPairsPos]⟩
  | case3 q pq a pa rest ih =>
    intro lb hsort hall
    rw [IntervalSorted, List.pairwise_cons] at hsort
    obtain ⟨hq_all, hsort⟩ := hsort
    rw [List.pairwise_cons] at hsort
    obtain ⟨ha_rest, hrest_sorted⟩ := hsort
    have hqa : pq + q.length ≤ pa := hq_all (a, pa) (List.mem_cons_self _ _)
    have hlb_pq : lb ≤ pq := hall (q, pq) (List.mem_cons_self _ _)
    have IH := ih (pa + a.length) hrest_sorted (fun x hx => ha_rest x hx)
    rw [qaPairsPos]
    set comb := jsTrim q ++ str "\n" ++ jsTrim a with hcomb
    have hcomblen : comb.length =
        (jsTrim q).length + 1 + (jsTrim a).length := by
      rw [hcomb]
      simp [str]
      omega
    have hcombsmall : comb.length ≤ q.length + 1 + a.length := by
      have h1 := jsTrim_length_le q
      have h2 := jsTrim_length_le a
      omega
    by_cases hne : jsTrim q ≠ [] ∧ jsTrim a ≠ []
    · rw [if_pos hne]
      have hcombtrim : jsTrim comb ≠ [] := by
        obtain ⟨c, hc, hcws⟩ := jsTrim_has_not_ws q hne.1
        intro hnil
        have := jsTrim_eq_nil_all_ws comb hnil c
          (List.mem_append_left _ (List.mem_append_left _ hc))
        rw [this] at hcws
        exact Bool.noConfusion hcws
      have hown : ∀ pr ∈ (if comb.length ≤ 1000 then [(comb, pq)]
          else sliderPos comb pq 0),
          pq ≤ pr.2 ∧ pr.2 ≤ pa + a.length ∧ jsTrim pr.1 ≠ [] := by
        intro pr hpr
        split at hpr
        · rcases List.mem_singleton.mp hpr with h
          subst h
          exact ⟨le_refl _, by omega, hcombtrim⟩
        · have hs := (sliderPos_spec comb pq 0).2.1 pr hpr
          refine ⟨by omega, by omega, ?_⟩
          rw [hs.2.2.1]
          exact hs.2.2.2
      have hownsort : (((if comb.length ≤ 1000 then [(comb, pq)]
          else sliderPos comb pq 0)).map Prod.snd).Sorted (· ≤ ·) := by
        split
        · simp
        · exact (sliderPos_spec comb pq 0).1
      constructor
      · rw [List.map_append, List.Sorted, List.pairwise_append]
        refine ⟨hownsort, IH.1, ?_⟩
        intro x hx y hy
        obtain ⟨prx, hprx, hx2⟩ := List.mem_map.mp hx
        obtain ⟨pry, hpry, hy2⟩ := List.mem_map.mp hy
        have h1 := (hown prx hprx).2.1
        have h2 := (IH.2 pry hpry).1
        omega
      · intro pr hpr
        rcases List.mem_append.mp hpr with h | h
        · have := hown pr h
          exact ⟨by omega, this.2.2⟩
        · have := IH.2 pr h
          exact ⟨by omega, this.2⟩
    · rw [if_neg hne]
      rw [List.nil_append]
      refine ⟨IH.1, ?_⟩
      intro pr hpr
      have := IH.2 pr hpr
      exact ⟨by omega, this.2⟩

/-! ## Educational-content path -/

theorem splitEducationalContentPos_spec (text : List Char)
    (hne : jsTrim text ≠ []) :
    ((splitEducationalContentPos text).map Prod.snd).Sorted (· ≤ ·) ∧
    (∀ pr ∈ splitEducationalContentPos text, jsTrim pr.1 ≠ []) ∧
    splitEducationalContentPos text ≠ [] := by
  have hA := qaPairsPos_spec (jsSplitPos eduPatA text) 0
    (jsSplitPos_spec eduPatA text).1 (fun x _ => Nat.zero_le _)
  have hB := qaPairsPos_spec (jsSplitPos eduPatB text) 0
    (jsSplitPos_spec eduPatB text).1 (fun x _ => Nat.zero_le _)
  set ca := qaPairsPos (jsSplitPos eduPatA text) with hca
  set chunks := if ca.length > 0 then ca
    else qaPairsPos (jsSplitPos eduPatB text) with hchunks
  have heq : splitEducationalContentPos text =
      if chunks.length = 0 then sliderPos text 0 0
      else chunks.filter fun pr => (jsTrim pr.1).length > 0 := rfl
  have hchunks_spec : (chunks.map Prod.snd).Sorted (· ≤ ·) ∧
      ∀ pr ∈ chunks, jsTrim pr.1 ≠ [] := by
    rw [hchunks]
    split
    · exact ⟨hA.1, fun pr hpr => (hA.2 pr hpr).2⟩
    · exact ⟨hB.1, fun pr hpr => (hB.2 pr hpr).2⟩
  rw [heq]
  by_cases hz : chunks.length = 0
  · rw [if_pos hz]
    have hs := sliderPos_spec text 0 0
    refine ⟨hs.1, ?_, ?_⟩
    · intro pr hpr
      have := hs.2.1 pr hpr
      rw [this.2.2.1]
      exact this.2.2.2
    · apply hs.2.2
      obtain ⟨c, hc, hcws⟩ := jsTrim_has_not_ws text hne
      exact ⟨c, by rw [List.drop_zero]; exact jsTrim_subset text hc, hcws⟩
  · rw [if_neg hz]
    have hfil : (chunks.filter fun pr => (jsTrim pr.1).length > 0) =
        chunks := by
      apply List.filter_eq_self.mpr
      intro x hx
      have := hchunks_spec.2 x hx
      simpa [List.length_pos] using this
    rw [hfil]
    refine ⟨hchunks_spec.1, hchunks_spec.2, ?_⟩
    intro h0
    rw [h0] at hz
    simp at hz

/-! ## The cleaned text contains no newline -/

theorem collapseWsGo_ws_mem (l : List Char) : ∀ (b : Bool) (c : Char),
    c ∈ collapseWsGo b l → jsIsWs c = true → c = ' ' := by
  induction l with
  | nil =>
    intro b c hc
    rw [collapseWsGo] at hc
    exact absurd hc (List.not_mem_nil c)
  | cons d rest ih =>
    intro b c hc hws
    rw [collapseWsGo] at hc
    by_cases hd : jsIsWs d = true
    · rw [if_pos hd] at hc
      by_cases hb : b = true
      · rw [if_pos hb] at hc
        exact ih true c hc hws
      · rw [if_neg hb] at hc
        rcases List.mem_cons.mp hc with h | h
        · exact h
        · exact ih true c h hws
    · rw [if_neg hd] at hc
      rcases List.mem_cons.mp hc with h | h
      · subst h
        exact absurd hws hd
      · exact ih false c h hws

theorem no_nl_collapseWs (text : List Char) : '\n' ∉ collapseWs text := by
  intro h
  have := collapseWsGo_ws_mem text false '\n' h (by decide)
  exact absurd this (by decide)

theorem headEq_single_mem (c : Char) (t : List Char)
    (h : headEq [c] t = true) : c ∈ t := by
  cases t with
  | nil => exact absurd h (by simp [headEq])
  | cons b t' =>
    simp only [headEq, Bool.and_eq_true, decide_eq_true_eq] at h
    rw [h.1]
    exact List.mem_cons_self b t'

theorem nlPat_no_match (s : List Char) (hno : '\n' ∉ s) (fuel i : ℕ)
    (cp : Caps) : matchFrom fuel nlPat s i cp = none := by
  cases fuel with
  | zero => rfl
  | succ fuel =>
    have hlit : litTest false (str "\n") s i = false := by
      by_contra h
      rw [Bool.not_eq_false] at h
      unfold litTest at h
      rw [if_neg (by simp)] at h
      have : '\n' ∈ s.drop i := headEq_single_mem '\n' (s.drop i) h
      exact hno (List.drop_subset i s this)
    rw [show nlPat = RItem.lit false (str "\n") ::
      [RItem.cls jsIsWs 0 none true, RItem.lit false (str "\n")] from rfl]
    simp only [matchFrom, hlit, Bool.false_eq_true, if_false]

theorem matchPatsAt_nlPat_none (s : List Char) (hno : '\n' ∉ s) (i : ℕ) :
    matchPatsAt [nlPat] s i = none := by
  unfold matchPatsAt
  rw [List.findSome?_eq_none_iff]
  intro pat hpat
  rcases List.mem_singleton.mp hpat with h
  subst h
  rw [nlPat_no_match s hno]
  rfl

theorem searchFrom_nlPat_none (s : List Char) (hno : '\n' ∉ s) (start : ℕ) :
    searchFrom [nlPat] s start = none := by
  unfold searchFrom
  rw [List.findSome?_eq_none_iff]
  intro i _
  by_cases hs : start ≤ i
  · rw [if_pos hs]
    exact matchPatsAt_nlPat_none s hno i
  · rw [if_neg hs]

theorem globalMatches_nlPat_nil (s : List Char) (hno : '\n' ∉ s) :
    globalMatches [nlPat] s = [] := by
  unfold globalMatches
  rw [globalGo, searchFrom_nlPat_none s hno]

theorem jsSplitPos_nlPat (s : List Char) (hno : '\n' ∉ s) :
    jsSplitPos [nlPat] s = [(s, 0)] := by
  unfold jsSplitPos
  rw [globalMatches_nlPat_nil s hno, jsSplitPosGo]
  simp [jsSlice]

theorem replaceAll_nlPat_id (s r : List Char) (hno : '\n' ∉ s) :
    replaceAll [nlPat] r s = s := by
  unfold replaceAll
  rw [globalMatches_nlPat_nil s hno, replaceAllGo]
  simp [jsSlice]

theorem no_nl_jsCleanText (text : List Char) : '\n' ∉ jsCleanText text := by
  show '\n' ∉ jsTrim (replaceAll [nlPat] (str "\n") (collapseWs text))
  rw [replaceAll_nlPat_id _ _ (no_nl_collapseWs text)]
  intro h
  exact no_nl_collapseWs text (jsTrim_subset _ h)

/-! ## The header scan of splitIntoSections -/

theorem indexOfFrom_bounds (s w : List Char) (start hi : ℕ)
    (h : indexOfFrom s w start = some hi) :
    start ≤ hi ∧ hi + w.length ≤ s.length := by
  unfold indexOfFrom at h
  have hp := List.find?_some h
  have hmem := List.mem_of_find?_eq_some h
  rw [List.mem_range] at hmem
  simp only [Bool.and_eq_true, decide_eq_true_eq] at hp
  obtain ⟨h1, h2⟩ := hp
  have := headEq_length w (s.drop hi) h2
  rw [List.length_drop] at this
  omega

theorem findWordCI_bounds (text w : List Char) (ms me : ℕ)
    (h : findWordCI text w = some (ms, me)) :
    me = ms + w.length ∧ ms + w.length ≤ text.length := by
  unfold findWordCI at h
  obtain ⟨i, hi, hcase⟩ := List.exists_of_findSome?_eq_some h
  rw [List.mem_range] at hi
  split at hcase
  · rename_i hcond
    rw [Option.some.injEq, Prod.mk.injEq] at hcase
    obtain ⟨hms, hme⟩ := hcase
    subst hms
    have := litTest_le true w text i hcond.1 (by omega)
    exact ⟨hme.symm, this⟩
  · exact absurd hcase (by simp)

theorem sectionStep_ok (text : List Char) (st : SectionScan)
    (header : List Char) (hh : header ≠ []) (hok : ScanOK text st) :
    ScanOK text (sectionStep text st header) := by
  unfold sectionStep
  cases hf : findWordCI text header with
  | none => exact hok
  | some r =>
    obtain ⟨ms, me⟩ := r
    dsimp only
    cases hio : indexOfFrom text (jsSlice text ms me) st.lastIndex with
    | none => exact hok
    | some hi =>
      dsimp only
      by_cases hgt : hi > st.lastIndex
      · rw [if_pos hgt]
        obtain ⟨hsort, hmem, hcur, hlast⟩ := hok
        have hfb := findWordCI_bounds text header ms me hf
        have hslicelen : (jsSlice text ms me).length = header.length := by
          rw [jsSlice_length]
          omega
        have hib := indexOfFrom_bounds text (jsSlice text ms me)
          st.lastIndex hi hio
        rw [hslicelen] at hib
        have hhlen : 0 < header.length := List.length_pos.mpr hh
        refine ⟨?_, ?_, ?_, ?_⟩
        · show IntervalSorted (st.sections ++ _)
          rw [IntervalSorted, List.pairwise_append]
          refine ⟨hsort, ?_, ?_⟩
          · split
            · exact List.pairwise_singleton _ _
            · exact List.Pairwise.nil
          · intro x hx y hy
            split at hy
            · rcases List.mem_singleton.mp hy with h
              subst h
              exact (hmem x hx).1
            · exact absurd hy (List.not_mem_nil y)
        · intro pr hpr
          rcases List.mem_append.mp hpr with h | h
          · have := hmem pr h
            refine ⟨?_, this.2⟩
            show pr.2 + pr.1.length ≤ st.lastIndex
            omega
          · split at h
            · rcases List.mem_singleton.mp h with h2
              subst h2
              rename_i hpos
              have htl := jsTrim_length_le st.current
              refine ⟨?_, jsTrim_idem _, ?_⟩
              · show st.currentPos + (jsTrim st.current).length ≤ st.lastIndex
                omega
              · intro h0
                have h0' : jsTrim st.current = [] := h0
                rw [h0'] at hpos
                exact absurd hpos (by simp)
            · exact absurd h (List.not_mem_nil pr)
        · show st.lastIndex + (jsSlice text st.lastIndex hi).length = hi
          rw [jsSlice_length]
          omega
        · show hi < text.length
          omega
      · rw [if_neg hgt]
        exact hok

theorem scan_foldl_ok (text : List Char) (headers : List (List Char))
    (hh : ∀ h ∈ headers, h ≠ []) (st : SectionScan) (hok : ScanOK text st) :
    ScanOK text (headers.foldl (sectionStep text) st) := by
  induction headers generalizing st with
  | nil => exact hok
  | cons hd tl ih =>
    rw [List.foldl_cons]
    exact ih (fun h hmem => hh h (List.mem_cons_of_mem hd hmem))
      (sectionStep text st hd)
      (sectionStep_ok text st hd (hh hd (List.mem_cons_self hd tl)) hok)

theorem getLast?_drop_of_lt (l : List Char) (k : ℕ) (hk : k < l.length) :
    (l.drop k).getLast? = l.getLast? := by
  conv_rhs => rw [← List.take_append_drop k l]
  rw [List.getLast?_append_of_ne_nil]
  intro h
  rw [List.drop_eq_nil_iff] at h
  omega

theorem mem_of_getLast?_char (l : List Char) (a : Char)
    (h : l.getLast? = some a) : a ∈ l := by
  have hne : l ≠ [] := by
    intro h0
    rw [h0] at h
    exact Option.noConfusion h
  rw [List.getLast?_eq_getLast l hne] at h
  exact Option.some.inj h ▸ List.getLast_mem hne

theorem splitIntoSectionsPos_spec (text : List Char)
    (htrim : jsTrim text = text) (hne : text ≠ []) (hno : '\n' ∉ text) :
    IntervalSorted (splitIntoSectionsPos text) ∧
    (∀ se ∈ splitIntoSectionsPos text, jsTrim se.1 = se.1 ∧ se.1 ≠ []) ∧
    splitIntoSectionsPos text ≠ [] := by
  have hlen : 0 < text.length := List.length_pos.mpr hne
  have hok := scan_foldl_ok text sectionHeaders (by decide) ⟨[], [], 0, 0⟩
    ⟨List.Pairwise.nil, fun pr hpr => absurd hpr (List.not_mem_nil pr),
      rfl, hlen⟩
  set st := sectionHeaders.foldl (sectionStep text) ⟨[], [], 0, 0⟩ with hst
  obtain ⟨hsort, hmem, hcur, hlast⟩ := hok
  set current := if st.lastIndex < text.length then
      st.current ++ jsSlice text st.lastIndex text.length
    else st.current with hcurrent
  set currentPos := if st.current.isEmpty then st.lastIndex
    else st.currentPos with hcurrentPos
  set sections := st.sections ++
    (if (jsTrim current).length > 0 then [(jsTrim current, currentPos)]
     else []) with hsections
  have heq : splitIntoSectionsPos text =
      if sections.length = 1 then
        (jsSplitPos [nlPat] text).filter fun pr => (jsTrim pr.1).length > 0
      else sections := rfl
  have hcur_eq : current =
      st.current ++ jsSlice text st.lastIndex text.length := by
    rw [hcurrent, if_pos hlast]
  have htail : jsSlice text st.lastIndex text.length =
      text.drop st.lastIndex := by
    unfold jsSlice
    rw [List.take_length]
  have hglast : ∃ c, text.getLast? = some c ∧ jsIsWs c = false := by
    cases hg : text.getLast? with
    | none =>
      rw [List.getLast?_eq_none_iff] at hg
      exact absurd hg hne
    | some c =>
      refine ⟨c, rfl, jsTrim_getLast?_not_ws text c ?_⟩
      rw [htrim]
      exact hg
  obtain ⟨c, hc, hcws⟩ := hglast
  have hcmem : c ∈ current := by
    rw [hcur_eq, htail]
    apply List.mem_append_right
    apply mem_of_getLast?_char
    rw [getLast?_drop_of_lt text st.lastIndex hlast]
    exact hc
  have hpushne : jsTrim current ≠ [] := by
    intro h0
    have := jsTrim_eq_nil_all_ws current h0 c hcmem
    rw [this] at hcws
    exact Bool.noConfusion hcws
  have hpush : (jsTrim current).length > 0 := List.length_pos.mpr hpushne
  have hsections_eq : sections =
      st.sections ++ [(jsTrim current, currentPos)] := by
    rw [hsections, if_pos hpush]
  have hcp_ge : st.currentPos ≤ currentPos := by
    rw [hcurrentPos]
    split
    · rename_i hempty
      have h0 : st.current.length = 0 := by
        rw [List.isEmpty_iff] at hempty
        rw [hempty]
        rfl
      omega
    · exact le_refl _
  have hsec_sorted : IntervalSorted sections := by
    rw [hsections_eq, IntervalSorted, List.pairwise_append]
    refine ⟨hsort, List.pairwise_singleton _ _, ?_⟩
    intro x hx y hy
    rcases List.mem_singleton.mp hy with h
    subst h
    have := hmem x hx
    show x.2 + x.1.length ≤ currentPos
    omega
  have hsec_mem : ∀ se ∈ sections, jsTrim se.1 = se.1 ∧ se.1 ≠ [] := by
    rw [hsections_eq]
    intro se hse
    rcases List.mem_append.mp hse with h | h
    · exact ⟨(hmem se h).2.1, (hmem se h).2.2⟩
    · rcases List.mem_singleton.mp h with h2
      subst h2
      exact ⟨jsTrim_idem _, hpushne⟩
  rw [heq]
  by_cases h1 : sections.length = 1
  · rw [if_pos h1, jsSplitPos_nlPat text hno]
    have hkeep : (([(text, 0)] : List (List Char × ℕ)).filter
        fun pr => (jsTrim pr.1).length > 0) = [(text, 0)] := by
      apply List.filter_eq_self.mpr
      intro x hx
      rcases List.mem_singleton.mp hx with h
      subst h
      have : (jsTrim text).length > 0 := by
        rw [htrim]
        exact List.length_pos.mpr hne
      simpa using this
    rw [hkeep]
    refine ⟨List.pairwise_singleton _ _, ?_, by simp⟩
    intro se hse
    rcases List.mem_singleton.mp hse with h
    subst h
    exact ⟨htrim, hne⟩
  · rw [if_neg h1]
    refine ⟨hsec_sorted, hsec_mem, ?_⟩
    rw [hsections_eq]
    intro h0
    simp at h0

/-! ## Assembling the generic chunking path -/

theorem sections_chunks_spec (sections : List (List Char × ℕ))
    (hsort : IntervalSorted sections)
    (hmem : ∀ se ∈ sections, jsTrim se.1 = se.1 ∧ se.1 ≠ []) :
    (((sections.flatMap fun se =>
        if se.1.length ≤ 1000 then [(jsTrim se.1, se.2)]
        else sliderPos se.1 se.2 0).map Prod.snd).Sorted (· ≤ ·)) ∧
    (∀ pr ∈ sections.flatMap fun se =>
        if se.1.length ≤ 1000 then [(jsTrim se.1, se.2)]
        else sliderPos se.1 se.2 0,
      jsTrim pr.1 ≠ [] ∧
        ∃ se ∈ sections, se.2 ≤ pr.2 ∧ pr.2 < se.2 + se.1.length) ∧
    (sections ≠ [] → (sections.flatMap fun se =>
        if se.1.length ≤ 1000 then [(jsTrim se.1, se.2)]
        else sliderPos se.1 se.2 0) ≠ []) := by
  induction sections with
  | nil =>
    refine ⟨by simp, by simp, ?_⟩
    intro h
    exact absurd rfl h
  | cons se rest ih =>
    rw [IntervalSorted, List.pairwise_cons] at hsort
    obtain ⟨hse_rest, hrest_sorted⟩ := hsort
    have hse := hmem se (List.mem_cons_self se rest)
    have hse_trim_ne : jsTrim se.1 ≠ [] := by
      rw [hse.1]
      exact hse.2
    have hse_len : 0 < se.1.length := List.length_pos.mpr hse.2
    have IH := ih hrest_sorted
      (fun x hx => hmem x (List.mem_cons_of_mem se hx))
    rw [List.flatMap_cons]
    have hown : ∀ pr ∈ (if se.1.length ≤ 1000 then [(jsTrim se.1, se.2)]
        else sliderPos se.1 se.2 0),
        jsTrim pr.1 ≠ [] ∧ se.2 ≤ pr.2 ∧ pr.2 < se.2 + se.1.length := by
      intro pr hpr
      split at hpr
      · rcases List.mem_singleton.mp hpr with h
        subst h
        refine ⟨?_, le_refl _, by omega⟩
        show jsTrim (jsTrim se.1) ≠ []
        rw [jsTrim_idem]
        exact hse_trim_ne
      · have hs := (sliderPos_spec se.1 se.2 0).2.1 pr hpr
        refine ⟨?_, by omega, by omega⟩
        rw [hs.2.2.1]
        exact hs.2.2.2
    have hownsort : (((if se.1.length ≤ 1000 then [(jsTrim se.1, se.2)]
        else sliderPos se.1 se.2 0)).map Prod.snd).Sorted (· ≤ ·) := by
      split
      · simp
      · exact (sliderPos_spec se.1 se.2 0).1
    have hownne : (if se.1.length ≤ 1000 then [(jsTrim se.1, se.2)]
        else sliderPos se.1 se.2 0) ≠ [] := by
      split
      · simp
      · apply (sliderPos_spec se.1 se.2 0).2.2
        obtain ⟨d, hd, hdws⟩ := jsTrim_has_not_ws se.1 hse_trim_ne
        refine ⟨d, ?_, hdws⟩
        rw [List.drop_zero, ← hse.1]
        exact hd
    refine ⟨?_, ?_, ?_⟩
    · rw [List.map_append, List.Sorted, List.pairwise_append]
      refine ⟨hownsort, IH.1, ?_⟩
      intro x hx y hy
      obtain ⟨prx, hprx, hx2⟩ := List.mem_map.mp hx
      obtain ⟨pry, hpry, hy2⟩ := List.mem_map.mp hy
      have h1 := (hown prx hprx).2.2
      obtain ⟨_, se', hse', h2, _⟩ := (IH.2.1 pry hpry)
      have h3 := hse_rest se' hse'
      omega
    · intro pr hpr
      rcases List.mem_append.mp hpr with h | h
      · have := hown pr h
        exact ⟨this.1, se, List.mem_cons_self se rest, this.2.1, this.2.2⟩
      · obtain ⟨h1, se', hse', h2⟩ := IH.2.1 pr h
        exact ⟨h1, se', List.mem_cons_of_mem se hse', h2⟩
    · intro _
      intro h0
      rcases List.append_eq_nil.mp h0 with ⟨ha, _⟩
      exact hownne ha

theorem splitTextIntoChunksPos_spec (text : List Char)
    (h : jsCleanText text ≠ []) :
    ((splitTextIntoChunksPos text).map Prod.snd).Sorted (· ≤ ·) ∧
    (∀ pr ∈ splitTextIntoChunksPos text, jsTrim pr.1 ≠ []) ∧
    splitTextIntoChunksPos text ≠ [] := by
  have hct_trim : jsTrim (jsCleanText text) = jsCleanText text :=
    jsTrim_idem (replaceAll [nlPat] (str "\n") (collapseWs text))
  have heq : splitTextIntoChunksPos text =
      if isEducationalDocument (jsCleanText text) then
        splitEducationalContentPos (jsCleanText text)
      else
        (((splitIntoSectionsPos (jsCleanText text)).flatMap fun se =>
          if se.1.length ≤ 1000 then [(jsTrim se.1, se.2)]
          else sliderPos se.1 se.2 0).filter
          fun pr => (jsTrim pr.1).length > 0) := rfl
  rw [heq]
  by_cases hedu : isEducationalDocument (jsCleanText text) = true
  · rw [if_pos hedu]
    have he := splitEducationalContentPos_spec (jsCleanText text)
      (by rw [hct_trim]; exact h)
    exact ⟨he.1, he.2.1, he.2.2⟩
  · rw [if_neg hedu]
    have hs := splitIntoSectionsPos_spec (jsCleanText text) hct_trim h
      (no_nl_jsCleanText text)
    have hch := sections_chunks_spec (splitIntoSectionsPos (jsCleanText text))
      hs.1 hs.2.1
    have hfil : ((((splitIntoSectionsPos (jsCleanText text)).flatMap fun se =>
        if se.1.length ≤ 1000 then [(jsTrim se.1, se.2)]
        else sliderPos se.1 se.2 0)).filter
        fun pr => (jsTrim pr.1).length > 0) =
        ((splitIntoSectionsPos (jsCleanText text)).flatMap fun se =>
        if se.1.length ≤ 1000 then [(jsTrim se.1, se.2)]
        else sliderPos se.1 se.2 0) := by
      apply List.filter_eq_self.mpr
      intro x hx
      have := (hch.2.1 x hx).1
      simpa [List.length_pos] using this
    rw [hfil]
    exact ⟨hch.1, fun pr hpr => (hch.2.1 pr hpr).1, hch.2.2 hs.2.2⟩

/-- **C7 counterexample.** On the empty source text `splitTextIntoChunks`
returns the empty list — the cleanup trims the text to `""`, no section
survives, and the final filter keeps nothing — so the claim that the chunker
returns a non-empty sequence for *all* source text fails. -/
theorem chunker_empty_counterexample : splitTextIntoChunks (str "") = [] := by
  rfl

/-- **C7 (amended).** For every source text whose cleaned text (whitespace
runs collapsed, then trimmed — the chunker's own first step) is non-empty,
`splitTextIntoChunks` returns a non-empty list of chunks, every chunk is
non-empty after trimming, and the chunks appear in left-to-right document
order: the public output is the first projection of the position-instrumented
chunker, whose chunk start positions are monotonically non-decreasing. -/
theorem chunker_nonempty_trimmed_ordered (text : List Char)
    (h : jsCleanText text ≠ []) :
    splitTextIntoChunks text ≠ [] ∧
    (∀ c ∈ splitTextIntoChunks text, jsTrim c ≠ []) ∧
    splitTextIntoChunks text = (splitTextIntoChunksPos text).map Prod.fst ∧
    ((splitTextIntoChunksPos text).map Prod.snd).Sorted (· ≤ ·) := by
  have hs := splitTextIntoChunksPos_spec text h
  refine ⟨?_, ?_, rfl, hs.1⟩
  · intro h0
    apply hs.2.2
    unfold splitTextIntoChunks at h0
    exact List.map_eq_nil_iff.mp h0
  · intro c hc
    unfold splitTextIntoChunks at hc
    obtain ⟨pr, hpr, hpr2⟩ := List.mem_map.mp hc
    rw [← hpr2]
    exact hs.2.1 pr hpr

/-- Witness for C7's amended theorem at the concrete text `"Hi"`. -/
theorem chunker_nonempty_trimmed_ordered_witness :
    jsCleanText (str "Hi") ≠ [] ∧ splitTextIntoChunks (str "Hi") ≠ [] :=
  ⟨by decide, (chunker_nonempty_trimmed_ordered (str "Hi") (by decide)).1⟩
